import Mathlib

/-!
Verification development for the cowlang repository (kaimast/cowlang): a small
indentation-sensitive scripting language with a lexer, parser, tree-walking
interpreter and a tagged runtime value model.

This file gives a shallow embedding, translated from the Rust sources:
  * `src/values/mod.rs`   — the `Value` model, its operations and conversions;
  * `src/interpreter/mod.rs` and `src/interpreter/scopes.rs` — the interpreter;
  * `src/compiler/lexer.rs` — the u8-literal rule and the indentation pre-pass.

Modelling conventions:
  * Machine integers are `Int`/`Nat` with explicit wrapping (`% 2^w`) exactly
    where Rust `as`-casts or arithmetic can wrap.  Rust release-mode wrapping is
    used for `+`/`*` (no claim exercises an overflow).
  * `f32`/`f64` payloads are modelled as exact rationals (`ℚ`).  No claim in
    scope depends on floating-point rounding; only the tag dispatch of the
    float arms is relied upon.
  * Rust `panic!`/`unwrap` failures are `EvalErr.fatal`; the interpreter uses a
    fuel parameter for termination, exhaustion being the separate
    `EvalErr.outOfFuel` (never conflated with fatality in any theorem).
  * `HashMap<String, Value>` is modelled as an association list without
    duplicate keys; `HashMap::insert` replaces the (first) binding in place.
    Iteration order of the model is the list order (Rust's hash order is
    unspecified; no claim depends on it).
  * `Rc<Cell<Value>>` is modelled as an address into an explicit heap
    (`St.heap`); cloning the `Rc` copies the address, `Cell` mutation writes
    the heap slot.
-/

namespace Cowlang

/-- Runtime error kinds, from `src/values/error.rs` / usage in `values/mod.rs`. -/
inductive ValueError where
  | typeMismatch
  | operationNotSupported
  | noSuchChild
  | invalidKey
  | integerOverflow
  | indexOutOfBounds
  | fieldAlreadyExists
  deriving DecidableEq, Repr

/-- Top-level type tags, from `ast/mod.rs` (`enum ValueType`). -/
inductive ValueType where
  | none
  | bool
  | string
  | i64
  | u64
  | u8
  | f32
  | f64
  | map
  | list
  | bytes
  deriving DecidableEq, Repr

/-- The tagged runtime value, from `values/mod.rs` (`enum Value`).
`I64` payloads are `Int`, `U64`/`U8` payloads are `Nat` (wrapping applied at
the operations), float payloads are exact rationals, `Map` is an association
list, `Bytes` a byte list. -/
inductive Value where
  | none
  | bool (b : Bool)
  | str (s : String)
  | f32 (q : ℚ)
  | i64 (i : Int)
  | u64 (n : Nat)
  | f64 (q : ℚ)
  | u8 (n : Nat)
  | map (entries : List (String × Value))
  | list (elems : List Value)
  | bytes (bs : List Nat)

/-- Wrap an unbounded integer into i64 two's-complement range, the effect of a
Rust `as i64` cast / wrapping i64 arithmetic. -/
def wrapI64 (x : Int) : Int :=
  (x + 2 ^ 63) % 2 ^ 64 - 2 ^ 63

/-- Truncation of a rational toward zero (Rust `f64 as i64`, overflow
saturation omitted: no claim exercises it). -/
def ratTruncInt (q : ℚ) : Int :=
  if 0 ≤ q then ⌊q⌋ else ⌈q⌉

/-- `TryInto<i64> for Value` (`values/mod.rs`): note the `U64` arm is an
unchecked `as i64` cast. -/
def tryIntoI64 : Value → Except ValueError Int
  | .i64 c => .ok c
  | .u64 c => .ok (wrapI64 c)
  | .f64 c => .ok (ratTruncInt c)
  | _ => .error .typeMismatch

/-- `TryInto<u64> for Value` (`values/mod.rs`): the `I64` arm is an unchecked
`as u64` cast. -/
def tryIntoU64 : Value → Except ValueError Nat
  | .i64 c => .ok ((c % 2 ^ 64).toNat)
  | .u64 c => .ok c
  | _ => .error .typeMismatch

/-- `TryInto<u8> for Value` (`values/mod.rs`): range-checked. -/
def tryIntoU8 : Value → Except ValueError Nat
  | .u8 c => .ok c
  | .i64 c => if c < 256 ∧ 0 ≤ c then .ok c.toNat else .error .integerOverflow
  | .u64 c => if c < 256 then .ok c else .error .integerOverflow
  | _ => .error .typeMismatch

/-- `TryInto<f64> for Value` (`values/mod.rs`). -/
def tryIntoF64 : Value → Except ValueError ℚ
  | .i64 c => .ok (c : ℚ)
  | .u64 c => .ok (c : ℚ)
  | .f64 c => .ok c
  | .f32 c => .ok c
  | _ => .error .typeMismatch

/-- `TryInto<bool> for Value` (`values/mod.rs`). -/
def tryIntoBool : Value → Except ValueError Bool
  | .bool c => .ok c
  | _ => .error .typeMismatch

/-- Hex rendering of one byte, for the `Bytes` arm of string conversion. -/
def byteHex (b : Nat) : String :=
  let dig := fun (n : Nat) =>
    if n < 10 then Char.ofNat (48 + n) else Char.ofNat (87 + n)
  String.mk [dig (b / 16 % 16), dig (b % 16)]

/-- `TryInto<String> for Value` (`values/mod.rs`): `Str`, numerals and
hex-formatted `Bytes`. -/
def tryIntoString : Value → Except ValueError String
  | .str c => .ok c
  | .i64 i => .ok (toString i)
  | .f64 f => .ok (toString f)
  | .f32 f => .ok (toString f)
  | .u64 u => .ok (toString u)
  | .bytes b => .ok ("0x" ++ String.join (b.map byteHex))
  | _ => .error .typeMismatch

namespace Value

/-- `Value::is_greater_than` (`values/mod.rs` lines 161-176): numeric `>` with
the right operand converted to the left operand's width. -/
def is_greater_than (self other : Value) : Except ValueError Bool :=
  match self with
  | .i64 content => (tryIntoI64 other).map fun v => decide (v < content)
  | .u64 content => (tryIntoU64 other).map fun v => decide (v < content)
  | .f64 content => (tryIntoF64 other).map fun v => decide (v < content)
  | _ => .error .typeMismatch

/-- `Value::equals` (`values/mod.rs` lines 179-199): numeric/bool `==`. -/
def equals (self other : Value) : Except ValueError Bool :=
  match self with
  | .i64 content => (tryIntoI64 other).map fun v => decide (content = v)
  | .u64 content => (tryIntoU64 other).map fun v => decide (content = v)
  | .bool content => (tryIntoBool other).map fun v => content = v
  | .f64 content => (tryIntoF64 other).map fun v => decide (content = v)
  | _ => .error .typeMismatch

/-- `Value::is_smaller_than` (`values/mod.rs` lines 202-217). -/
def is_smaller_than (self other : Value) : Except ValueError Bool :=
  match self with
  | .i64 content => (tryIntoI64 other).map fun v => decide (content < v)
  | .u64 content => (tryIntoU64 other).map fun v => decide (content < v)
  | .f64 content => (tryIntoF64 other).map fun v => decide (content < v)
  | _ => .error .typeMismatch

/-- `Value::multiply` (`values/mod.rs` lines 220-238): note there is no `U8`
arm — a `U8` left operand falls to `OperationNotSupported`. -/
def multiply (self other : Value) : Except ValueError Value :=
  match self with
  | .i64 content => (tryIntoI64 other).map fun v => .i64 (wrapI64 (content * v))
  | .u64 content => (tryIntoU64 other).map fun v => .u64 ((content * v) % 2 ^ 64)
  | .f64 content => (tryIntoF64 other).map fun v => .f64 (content * v)
  | _ => .error .operationNotSupported

/-- `Value::add` (`values/mod.rs` lines 241-263): unlike `multiply` this has a
`U8` arm. -/
def add (self other : Value) : Except ValueError Value :=
  match self with
  | .i64 content => (tryIntoI64 other).map fun v => .i64 (wrapI64 (content + v))
  | .u64 content => (tryIntoU64 other).map fun v => .u64 ((content + v) % 2 ^ 64)
  | .f64 content => (tryIntoF64 other).map fun v => .f64 (content + v)
  | .u8 content => (tryIntoU8 other).map fun v => .u8 ((content + v) % 2 ^ 8)
  | _ => .error .operationNotSupported

/-- `Value::negate` (`values/mod.rs`): boolean complement only. -/
def negate : Value → Except ValueError Value
  | .bool content => .ok (.bool (!content))
  | _ => .error .operationNotSupported

/-- `Value::as_bool` (`values/mod.rs` lines 444-452): `Bool` passes through,
`I64`/`U64` test strict positivity, everything else is unsupported. -/
def as_bool : Value → Except ValueError Bool
  | .bool content => .ok content
  | .i64 content => .ok (decide (0 < content))
  | .u64 content => .ok (decide (0 < content))
  | _ => .error .operationNotSupported

/-- `Value::num_children` (`values/mod.rs`). -/
def num_children : Value → Nat
  | .map content => content.length
  | .list content => content.length
  | _ => 0

/-- Replace the binding of `key` (first occurrence) by `value`, returning the
replaced value if any — the model of `HashMap::insert`. -/
def assocInsert (key : String) (value : Value) :
    List (String × Value) → Option Value × List (String × Value)
  | [] => (Option.none, [(key, value)])
  | (k, v) :: rest =>
    if k = key then (some v, (k, value) :: rest)
    else
      ((assocInsert key value rest).1, (k, v) :: (assocInsert key value rest).2)

/-- `Value::map_insert` (`values/mod.rs` lines 349-364).  The Rust code first
performs `HashMap::insert` (which replaces an existing binding) and only then
reports `FieldAlreadyExists`, so the pair returned here is the `Result`
together with the mutated receiver (`&mut self`). -/
def map_insert (self : Value) (key : String) (value : Value) :
    Except ValueError Unit × Value :=
  match self with
  | .map content =>
    let (res, content') := assocInsert key value content
    match res with
    | Option.none => (.ok (), .map content')
    | some _ => (.error .fieldAlreadyExists, .map content')
  | other => (.error .typeMismatch, other)

/-- `Value::get_child` (`values/mod.rs` lines 366-393): map lookup after
stringifying the key, or list indexing after an i64 conversion. -/
def get_child (self : Value) (key : Value) : Except ValueError Value :=
  match self with
  | .map content => do
    let kstr ← tryIntoString key
    match content.lookup kstr with
    | some val => .ok val
    | Option.none => .error .noSuchChild
  | .list content => do
    let pos ← tryIntoI64 key
    if h : 0 ≤ pos ∧ pos.toNat < content.length then
      .ok (content.get ⟨pos.toNat, h.2⟩)
    else
      .error .indexOutOfBounds
  | _ => .error .typeMismatch

/-- `Value::into_map` (`values/mod.rs`): succeeds only on a `Map`. -/
def into_map : Value → Option (List (String × Value))
  | .map content => some content
  | _ => Option.none

/-- `Value::list_append` (`values/mod.rs` lines 432-442). -/
def list_append (self : Value) (value : Value) : Except ValueError Value :=
  match self with
  | .list content => .ok (.list (content ++ [value]))
  | _ => .error .typeMismatch

end Value

/-- `enum CompareType` from `ast/mod.rs`. -/
inductive CompareType where
  | equalsCmp
  | greaterCmp
  | smallerCmp
  deriving DecidableEq, Repr

/-- The expression tree, from `ast/mod.rs` (`enum Expr`).  `ParseNode` is
`(Span, Expr)` in the source; the interpreter destructures every node as
`let (_span, expr) = stmt` and never reads the span, so spans are dropped
here.  `Dictionary`'s `HashMap` is an association list (parser-deduplicated). -/
inductive Expr where
  | var (name : String)
  | i64 (i : Int)
  | u64 (n : Nat)
  | u8 (n : Nat)
  | bool (b : Bool)
  | string (s : String)
  | list (elems : List Expr)
  | brackets (inner : Expr)
  | range (start stop : Expr) (step : Option Expr)
  | toStr (e : Expr)
  | maxE (lhs rhs : Expr)
  | minE (lhs rhs : Expr)
  | dictionary (kvs : List (String × Expr))
  | notE (e : Expr)
  | cast (value : Expr) (typename : ValueType)
  | forIn (iter : Expr) (targetName : String) (body : List Expr)
  | add (lhs rhs : Expr)
  | multiply (lhs rhs : Expr)
  | assign (name : String) (rhs : Expr)
  | addEquals (lhs : String) (rhs : Expr)
  | assignNew (name : String) (rhs : Expr)
  | getMember (obj : Expr) (name : String)
  | getElement (obj key : Expr)
  | call (callee : Expr) (args : List Expr)
  | ifElse (cond : Expr) (body : List Expr) (elseBranch : Option (List Expr))
  | ifElseRecursive (cond : Expr) (body : List Expr) (elseBranch : Expr)
  | compare (ctype : CompareType) (lhs rhs : Expr)
  | ret (rhs : Expr)

/-- `enum ControlFlow` from `interpreter/mod.rs`. -/
inductive ControlFlow where
  | Continue
  | Return
  deriving DecidableEq, Repr

/-- An active iterator (`Box<dyn Iterable>` in `interpreter/mod.rs`): either a
`ListIterable` snapshot or a `RangeIterable {end, step, pos}` (the `end` field
is called `stop` here, `end` being reserved). -/
inductive Iter where
  | list (elems : List Value)
  | range (stop step pos : Int)

/-- `Iterable::next` for both implementations (`interpreter/mod.rs` lines
42-69).  `RangeIterable` advances by `pos + step` with i64 wrapping. -/
def Iter.next : Iter → Option (Value × Iter)
  | .list [] => Option.none
  | .list (x :: rest) => some (x, .list rest)
  | .range stop step pos =>
    if pos < stop then some (.i64 pos, .range stop step (wrapI64 (pos + step)))
    else Option.none

/-- `enum Handle` (`interpreter/mod.rs`), with `Rc<Cell<Value>>` as a heap
address.  The `Object`/`Callable` variants are host-extension values
(`dyn Module`/`dyn Callable`); no module is registered in the programs the
claims quantify over, so they cannot arise and are omitted. -/
inductive Handle where
  | none
  | value (addr : Nat)
  | builtinCallable (addr : Nat) (name : String)
  | iter (it : Iter)

/-- `Handle::try_clone`: cloning an iterator (or callable) handle panics. -/
def Handle.try_clone : Handle → Option Handle
  | .iter _ => Option.none
  | h => some h

/-- One lexical scope: name → handle bindings.  `scopes.rs` stores
`Rc<Cell<Value>>` cells while `interpreter/mod.rs` passes whole `Handle`s into
`create_variable`/`update_variable`; the model follows the interpreter's calls
and binds `Handle`s (a plain cell being `Handle.value addr`).  The host-module
map of a scope is empty throughout (no claim registers modules). -/
abbrev Scope := List (String × Handle)

/-- Interpreter state: the cell heap and the scope stack.  The stack head is
the innermost scope (the end of the Rust `Vec`). -/
structure St where
  heap : List Value
  scopes : List Scope

/-- Evaluation failure: `fatal` models every Rust `panic!`/`unwrap` abort;
`outOfFuel` is the artificial termination bound, never identified with a
fatal outcome in any theorem. -/
inductive EvalErr where
  | fatal
  | outOfFuel
  deriving DecidableEq, Repr

/-- `Handle::wrap_value`: allocate a fresh cell. -/
def allocCell (st : St) (v : Value) : Handle × St :=
  (.value st.heap.length, ⟨st.heap ++ [v], st.scopes⟩)

/-- Read a heap cell (dereferencing an `Rc<Cell<Value>>`). -/
def heapGet (heap : List Value) (a : Nat) : Except EvalErr Value :=
  match heap[a]? with
  | some v => .ok v
  | Option.none => .error .fatal

/-- `Handle::unwrap_value` (`interpreter/mod.rs` lines 102-114): clone the
cell's content; any other handle kind panics. -/
def unwrapValue (st : St) : Handle → Except EvalErr Value
  | .value a => heapGet st.heap a
  | _ => .error .fatal

/-- Innermost-outward variable lookup over the raw bindings. -/
def lookupScopes : List Scope → String → Option Handle
  | [], _ => Option.none
  | sc :: rest, name =>
    match sc.lookup name with
    | some h => some h
    | Option.none => lookupScopes rest name

/-- `Scopes::get` (`scopes.rs` lines 39-49): innermost scope first, an
unresolved name panics, and the found handle is cloned (`try_clone`, which
panics on an iterator handle). -/
def scopesGet (st : St) (name : String) : Except EvalErr Handle :=
  match lookupScopes st.scopes name with
  | some h =>
    match h.try_clone with
    | some h' => .ok h'
    | Option.none => .error .fatal
  | Option.none => .error .fatal

/-- `Scopes::push` (`scopes.rs`). -/
def pushScope (st : St) : St :=
  ⟨st.heap, [] :: st.scopes⟩

/-- `Scopes::pop` (`scopes.rs`): popping the last remaining scope panics. -/
def popScope (st : St) : Except EvalErr St :=
  match st.scopes with
  | _ :: b :: rest => .ok ⟨st.heap, b :: rest⟩
  | _ => .error .fatal

/-- `Scopes::create_variable` (`scopes.rs` lines 51-62): bind in the innermost
scope, panicking if the name already exists there. -/
def createVariable (st : St) (name : String) (hdl : Handle) : Except EvalErr St :=
  match st.scopes with
  | [] => .error .fatal
  | sc :: rest =>
    match sc.lookup name with
    | some _ => .error .fatal
    | Option.none => .ok ⟨st.heap, ((name, hdl) :: sc) :: rest⟩

/-- Replace the first binding of `name` in a single scope. -/
def assocSetHandle (name : String) (hdl : Handle) : Scope → Scope
  | [] => []
  | (k, v) :: rest =>
    if k = name then (k, hdl) :: rest else (k, v) :: assocSetHandle name hdl rest

/-- `Scopes::update_variable` (`scopes.rs` lines 64-74): rebind at the
innermost scope that already holds the name (a fresh cell/handle replaces the
old one); panics when the name is nowhere bound. -/
def updateVariable : List Scope → String → Handle → Except EvalErr (List Scope)
  | [], _, _ => .error .fatal
  | sc :: rest, name, hdl =>
    if (sc.lookup name).isSome then .ok (assocSetHandle name hdl sc :: rest)
    else (updateVariable rest name hdl).map fun rest' => sc :: rest'

/-- The five evaluation activities of `Interpreter::step`: a single node, a
statement list (an `if`/`for` body or the program), the `for` loop over an
iterator, strict left-to-right call-argument evaluation, and dictionary-literal
construction. -/
inductive Job where
  | one (e : Expr)
  | seq (stmts : List Expr)
  | loop (it : Iter) (targetName : String) (body : List Expr)
  | args (es : List Expr)
  | dict (kvs : List (String × Expr)) (acc : Value)

/-- Result of an activity: a `(ControlFlow, Handle)` pair for
node/sequence/loop/dict jobs, an argument-value list for `args`. -/
inductive Out where
  | flow (cf : ControlFlow) (h : Handle)
  | vals (vs : List Value)

/-- Extract the handle of a node result (`.1` in the Rust pair). -/
def Out.handle : Out → Except EvalErr Handle
  | .flow _ h => .ok h
  | .vals _ => .error .fatal

/-- Lift a value-model `Result` into evaluation, a Rust `.unwrap()`: any
`ValueError` aborts the run. -/
def ofVE : Except ValueError α → Except EvalErr α
  | .ok a => .ok a
  | .error _ => .error .fatal

/-- `Interpreter::step` (`interpreter/mod.rs` lines 168-546) together with the
statement loops of `run`, the `if`/`for` bodies, the `for` iteration, call
arguments and dictionary literals.  The fuel argument only bounds recursion
depth/iteration count (`EvalErr.outOfFuel`); every Rust construct is otherwise
translated arm by arm. -/
def exec : Nat → St → Job → Except EvalErr (Out × St)
  | 0, _, _ => .error .outOfFuel
  | fuel + 1, st, job =>
    match job with
    | .seq [] => .ok (.flow .Continue .none, st)
    | .seq (s :: rest) => do
      let (o, st₁) ← exec fuel st (.one s)
      match o with
      | .flow .Return h => .ok (.flow .Return h, st₁)
      | .flow .Continue _ => exec fuel st₁ (.seq rest)
      | .vals _ => .error .fatal
    | .loop it target body =>
      match it.next with
      | Option.none => .ok (.flow .Continue .none, st)
      | some (v, it') => do
        let (hv, stA) := allocCell (pushScope st) v
        let stB ← createVariable stA target hv
        let (o, st₂) ← exec fuel stB (.seq body)
        match o with
        | .flow .Return h => do
          let st₃ ← popScope st₂
          .ok (.flow .Return h, st₃)
        | .flow .Continue _ => do
          let st₃ ← popScope st₂
          exec fuel st₃ (.loop it' target body)
        | .vals _ => .error .fatal
    | .args [] => .ok (.vals [], st)
    | .args (a :: rest) => do
      let (o, st₁) ← exec fuel st (.one a)
      match o with
      | .flow _ (.value addr) => do
        let v ← heapGet st₁.heap addr
        let (o₂, st₂) ← exec fuel st₁ (.args rest)
        match o₂ with
        | .vals vs => .ok (.vals (v :: vs), st₂)
        | .flow _ _ => .error .fatal
      | _ => .error .fatal
    | .dict [] acc =>
      let (h, st') := allocCell st acc
      .ok (.flow .Continue h, st')
    | .dict ((k, v) :: rest) acc => do
      let (o, st₁) ← exec fuel st (.one v)
      let hv ← o.handle
      let elem ← unwrapValue st₁ hv
      match acc.map_insert k elem with
      | (.ok _, acc') => exec fuel st₁ (.dict rest acc')
      | (.error _, _) => .error .fatal
    | .one e =>
      match e with
      | .ifElseRecursive cond body elseBranch => do
        let (oc, st₁) ← exec fuel st (.one cond)
        let hc ← oc.handle
        let cv ← unwrapValue st₁ hc
        let b ← ofVE cv.as_bool
        if b then do
          let (o, st₂) ← exec fuel (pushScope st₁) (.seq body)
          match o with
          | .flow .Return h => .ok (.flow .Return h, st₂)
          | .flow .Continue _ => do
            let st₃ ← popScope st₂
            .ok (.flow .Continue .none, st₃)
          | .vals _ => .error .fatal
        else
          exec fuel st₁ (.one elseBranch)
      | .ifElse cond body elseBranch => do
        let (oc, st₁) ← exec fuel st (.one cond)
        let hc ← oc.handle
        let cv ← unwrapValue st₁ hc
        let b ← ofVE cv.as_bool
        if b then do
          let (o, st₂) ← exec fuel (pushScope st₁) (.seq body)
          match o with
          | .flow .Return h => do
            let st₃ ← popScope st₂
            .ok (.flow .Return h, st₃)
          | .flow .Continue _ => do
            let st₃ ← popScope st₂
            .ok (.flow .Continue .none, st₃)
          | .vals _ => .error .fatal
        else
          match elseBranch with
          | some branch => do
            let (o, st₂) ← exec fuel (pushScope st₁) (.seq branch)
            match o with
            | .flow .Return h => do
              let st₃ ← popScope st₂
              .ok (.flow .Return h, st₃)
            | .flow .Continue _ => do
              let st₃ ← popScope st₂
              .ok (.flow .Continue .none, st₃)
            | .vals _ => .error .fatal
          | Option.none => .ok (.flow .Continue .none, st₁)
      | .addEquals lhs rhs => do
        let varH ← scopesGet st lhs
        let var ← unwrapValue st varH
        let (or', st₁) ← exec fuel st (.one rhs)
        let hr ← or'.handle
        let right ← unwrapValue st₁ hr
        let result ← ofVE (var.add right)
        let (hres, st₂) := allocCell st₁ result
        let scopes' ← updateVariable st₂.scopes lhs hres
        .ok (.flow .Continue .none, ⟨st₂.heap, scopes'⟩)
      | .assignNew name rhs => do
        let (o, st₁) ← exec fuel st (.one rhs)
        let h ← o.handle
        let st₂ ← createVariable st₁ name h
        .ok (.flow .Continue .none, st₂)
      | .forIn iter target body => do
        let (oi, st₁) ← exec fuel st (.one iter)
        let hi ← oi.handle
        let it ← match hi with
          | .value a => do
            let v ← heapGet st₁.heap a
            match v with
            | .list l => pure (Iter.list l)
            | _ => Except.error EvalErr.fatal
          | .iter i => pure i
          | _ => Except.error EvalErr.fatal
        exec fuel st₁ (.loop it target body)
      | .var name => do
        let h ← scopesGet st name
        .ok (.flow .Continue h, st)
      | .brackets inner => do
        let (o, st₁) ← exec fuel st (.one inner)
        let h ← o.handle
        .ok (.flow .Continue h, st₁)
      | .add lhs rhs => do
        let (ol, st₁) ← exec fuel st (.one lhs)
        let hl ← ol.handle
        let left ← unwrapValue st₁ hl
        let (orr, st₂) ← exec fuel st₁ (.one rhs)
        let hr ← orr.handle
        let right ← unwrapValue st₂ hr
        let result ← ofVE (left.add right)
        let (h, st₃) := allocCell st₂ result
        .ok (.flow .Continue h, st₃)
      | .multiply lhs rhs => do
        let (ol, st₁) ← exec fuel st (.one lhs)
        let hl ← ol.handle
        let left ← unwrapValue st₁ hl
        let (orr, st₂) ← exec fuel st₁ (.one rhs)
        let hr ← orr.handle
        let right ← unwrapValue st₂ hr
        let result ← ofVE (left.multiply right)
        let (h, st₃) := allocCell st₂ result
        .ok (.flow .Continue h, st₃)
      | .compare ctype lhs rhs => do
        let (ol, st₁) ← exec fuel st (.one lhs)
        let hl ← ol.handle
        let left ← unwrapValue st₁ hl
        let (orr, st₂) ← exec fuel st₁ (.one rhs)
        let hr ← orr.handle
        let right ← unwrapValue st₂ hr
        let result ← ofVE (match ctype with
          | .greaterCmp => left.is_greater_than right
          | .smallerCmp => left.is_smaller_than right
          | .equalsCmp => left.equals right)
        let (h, st₃) := allocCell st₂ (.bool result)
        .ok (.flow .Continue h, st₃)
      | .notE rhs => do
        let (orr, st₁) ← exec fuel st (.one rhs)
        let hr ← orr.handle
        let right ← unwrapValue st₁ hr
        let result ← ofVE right.negate
        let (h, st₂) := allocCell st₁ result
        .ok (.flow .Continue h, st₂)
      | .assign name rhs => do
        let (o, st₁) ← exec fuel st (.one rhs)
        let h ← o.handle
        let scopes' ← updateVariable st₁.scopes name h
        .ok (.flow .Continue .none, ⟨st₁.heap, scopes'⟩)
      | .getMember obj name => do
        let (o, st₁) ← exec fuel st (.one obj)
        let h ← o.handle
        match h with
        | .value a => .ok (.flow .Continue (.builtinCallable a name), st₁)
        | _ => .error .fatal
      | .call callee argEs => do
        let (oc, st₁) ← exec fuel st (.one callee)
        let res ← oc.handle
        let (oa, st₂) ← exec fuel st₁ (.args argEs)
        let argv ← match oa with
          | .vals vs => pure vs
          | .flow _ _ => Except.error EvalErr.fatal
        match res with
        | .builtinCallable a nm =>
          if nm = "len" then do
            let v ← heapGet st₂.heap a
            let (h, st₃) := allocCell st₂ (.u64 v.num_children)
            .ok (.flow .Continue h, st₃)
          else if nm = "values" then do
            let v ← heapGet st₂.heap a
            match v.into_map with
            | some m =>
              let (h, st₃) := allocCell st₂ (.list (m.map Prod.snd))
              .ok (.flow .Continue h, st₃)
            | Option.none => .error .fatal
          else if nm = "append" then
            match argv with
            | [] => .error .fatal
            | arg :: _ => do
              let v ← heapGet st₂.heap a
              let v' ← ofVE (v.list_append arg)
              let st₃ : St := ⟨st₂.heap.set a v', st₂.scopes⟩
              let (h, st₄) := allocCell st₃ Value.none
              .ok (.flow .Continue h, st₄)
          else .error .fatal
        | _ => .error .fatal
      | .getElement obj key => do
        let (oo, st₁) ← exec fuel st (.one obj)
        let ho ← oo.handle
        let resv ← unwrapValue st₁ ho
        let (ok', st₂) ← exec fuel st₁ (.one key)
        let hk ← ok'.handle
        let keyv ← unwrapValue st₂ hk
        let c ← ofVE (resv.get_child keyv)
        let (h, st₃) := allocCell st₂ c
        .ok (.flow .Continue h, st₃)
      | .dictionary kvs => exec fuel st (.dict kvs (.map []))
      | .string s =>
        let (h, st') := allocCell st (.str s)
        .ok (.flow .Continue h, st')
      | .range start stop stepOpt => do
        let (os, st₁) ← exec fuel st (.one start)
        let hs ← os.handle
        let sv ← unwrapValue st₁ hs
        let (oe, st₂) ← exec fuel st₁ (.one stop)
        let he ← oe.handle
        let ev ← unwrapValue st₂ he
        let s ← ofVE (tryIntoI64 sv)
        let e ← ofVE (tryIntoI64 ev)
        let (stepv, st₃) ← match stepOpt with
          | some sE => do
            let (o, st') ← exec fuel st₂ (.one sE)
            let h ← o.handle
            let v ← unwrapValue st' h
            let i ← ofVE (tryIntoI64 v)
            pure (i, st')
          | Option.none => pure ((1 : Int), st₂)
        if e < s then .error .fatal
        else if stepv ≤ 0 then .error .fatal
        else .ok (.flow .Continue (.iter (.range e stepv s)), st₃)
      | .maxE lhs rhs => do
        let (ol, st₁) ← exec fuel st (.one lhs)
        let hl ← ol.handle
        let lv ← unwrapValue st₁ hl
        let (orr, st₂) ← exec fuel st₁ (.one rhs)
        let hr ← orr.handle
        let rv ← unwrapValue st₂ hr
        let l ← ofVE (tryIntoI64 lv)
        let r ← ofVE (tryIntoI64 rv)
        let (h, st₃) := allocCell st₂ (.i64 (max l r))
        .ok (.flow .Continue h, st₃)
      | .minE lhs rhs => do
        let (ol, st₁) ← exec fuel st (.one lhs)
        let hl ← ol.handle
        let lv ← unwrapValue st₁ hl
        let (orr, st₂) ← exec fuel st₁ (.one rhs)
        let hr ← orr.handle
        let rv ← unwrapValue st₂ hr
        let l ← ofVE (tryIntoI64 lv)
        let r ← ofVE (tryIntoI64 rv)
        let (h, st₃) := allocCell st₂ (.i64 (min l r))
        .ok (.flow .Continue h, st₃)
      | .toStr inner => do
        let (o, st₁) ← exec fuel st (.one inner)
        let h ← o.handle
        let val ← unwrapValue st₁ h
        let s ← ofVE (tryIntoString val)
        let (h', st₂) := allocCell st₁ (.str s)
        .ok (.flow .Continue h', st₂)
      | .cast value tn =>
        match tn with
        | .u8 => do
          let (o, st₁) ← exec fuel st (.one value)
          let h ← o.handle
          let inner ← unwrapValue st₁ h
          let val ← ofVE (tryIntoU8 inner)
          let (h', st₂) := allocCell st₁ (.u8 val)
          .ok (.flow .Continue h', st₂)
        | .i64 => do
          let (o, st₁) ← exec fuel st (.one value)
          let h ← o.handle
          let inner ← unwrapValue st₁ h
          let val ← ofVE (tryIntoI64 inner)
          let (h', st₂) := allocCell st₁ (.i64 val)
          .ok (.flow .Continue h', st₂)
        | .u64 => do
          let (o, st₁) ← exec fuel st (.one value)
          let h ← o.handle
          let inner ← unwrapValue st₁ h
          let val ← ofVE (tryIntoU64 inner)
          let (h', st₂) := allocCell st₁ (.u64 val)
          .ok (.flow .Continue h', st₂)
        | _ => .error .fatal
      | .list elems => do
        let (oa, st₁) ← exec fuel st (.args elems)
        let vs ← match oa with
          | .vals vs => pure vs
          | .flow _ _ => Except.error EvalErr.fatal
        let (h, st₂) := allocCell st₁ (.list vs)
        .ok (.flow .Continue h, st₂)
      | .bool b =>
        let (h, st') := allocCell st (.bool b)
        .ok (.flow .Continue h, st')
      | .i64 i =>
        let (h, st') := allocCell st (.i64 i)
        .ok (.flow .Continue h, st')
      | .u64 n =>
        let (h, st') := allocCell st (.u64 n)
        .ok (.flow .Continue h, st')
      | .u8 n =>
        let (h, st') := allocCell st (.u8 n)
        .ok (.flow .Continue h, st')
      | .ret rhs => do
        let (o, st₁) ← exec fuel st (.one rhs)
        let h ← o.handle
        .ok (.flow .Return h, st₁)

/-- Pre-bound host values (`Interpreter::set_value` then `run`'s move of
`variables` into the root scope): each value gets a fresh cell in the single
root scope. -/
def initState (vars : List (String × Value)) : St :=
  vars.foldl
    (fun st p =>
      let (h, st') := allocCell st p.2
      match st'.scopes with
      | [root] =>
        ⟨st'.heap,
          [if (root.lookup p.1).isSome then assocSetHandle p.1 h root
           else (p.1, h) :: root]⟩
      | other => ⟨st'.heap, other⟩)
    ⟨[], [[]]⟩

/-- `Interpreter::run` (`interpreter/mod.rs` lines 148-166): execute the
statements in order against a fresh root scope; the first `Return`'s handle is
unwrapped as the result, and `Value::None` results when no statement
returns. -/
def runProgram (fuel : Nat) (vars : List (String × Value)) (stmts : List Expr) :
    Except EvalErr Value :=
  match exec fuel (initState vars) (.seq stmts) with
  | .ok (.flow .Return h, st') => unwrapValue st' h
  | .ok _ => .ok Value.none
  | .error e => .error e

/-! ## Lexer (`src/compiler/lexer.rs`) -/

/-- Tokens of the lexer relevant to the integer-literal rules
(`enum Token`, payload-carrying literal variants only). -/
inductive Token where
  | I64Literal (i : Int)
  | U64Literal (n : Nat)
  | U8Literal (n : Nat)
  deriving DecidableEq, Repr

/-- The action of the `"[0-9]+u8"` rule of `take_token` (`lexer.rs` lines
184-193) applied to the parsed numeral `i`: panic when `i < 0 || i > 256`,
otherwise emit `U8Literal(i as u8)` — the `as u8` cast reduces mod 256. -/
def u8_literal_rule (i : Int) : Except EvalErr Token :=
  if i < 0 ∨ 256 < i then .error .fatal
  else .ok (.U8Literal (i % 256).toNat)

/-- Result kind of one `get_next_indent` step (`enum IndentResult`). -/
inductive IndentResult where
  | Indent
  | Dedent
  | Newline
  deriving DecidableEq, Repr

/-- State of the `parse_indents` scan (`lexer.rs` lines 52-97): the
`is_newline` flag, the running space count of the current line, the
indentation-level stack `last_icount` (head = top of the Rust `Vec`), and the
accumulated entries of the `BTreeMap<usize, i32>` in ascending key order
(keys are produced in strictly increasing position order, so an association
list in creation order coincides with the map's iteration order). -/
structure PIState where
  isNewline : Bool
  current : Nat
  stack : List Nat
  indents : List (Nat × Int)

/-- The inner `loop` of `parse_indents`: compare the new line's indentation
`current` against the stack top; `Less` pops a level and subtracts 2 from the
entry, `Greater` pushes the level, adds 2 and stops, `Equal` stops.  The
returned Bool records whether `indents.entry(pos)` was touched at all (the
Rust entry is created on first `-= 2`/`+= 2`, and is kept even if the
adjustments cancel to 0). -/
def settle (current : Nat) : List Nat → Int → Bool → Int × Bool × List Nat
  | [], e, touched => (e, touched, [])
  | top :: rest, e, touched =>
    if current < top then settle current rest (e - 2) true
    else if top < current then (e + 2, true, current :: top :: rest)
    else (e, touched, top :: rest)

/-- One character step of the `parse_indents` scan (`lexer.rs` lines 58-88). -/
def parseIndentsStep (st : PIState) (pc : Nat × Char) : PIState :=
  let st₁ :=
    if pc.2 = ' ' ∧ st.isNewline then { st with current := st.current + 1 }
    else if pc.2 ≠ ' ' ∧ st.isNewline then
      let (e, touched, stack') := settle st.current st.stack 0 false
      { st with
        stack := stack'
        isNewline := false
        indents := if touched then st.indents ++ [(pc.1, e)] else st.indents }
    else st
  if pc.2 = '\n' then { st₁ with isNewline := true, current := 0 } else st₁

/-- `parse_indents` (`lexer.rs` lines 52-97) over the source as a character
list (positions are character indices; the claims do not depend on the
byte/char distinction).  The trailing `while` synthesizes one entry at
position `s.length` holding `-2` per still-open indentation level. -/
def parse_indents (s : List Char) : List (Nat × Int) :=
  let st := s.enum.foldl parseIndentsStep ⟨false, 0, [0], []⟩
  if 1 < st.stack.length then
    st.indents ++ [(s.length, -2 * ((st.stack.length : Int) - 1))]
  else st.indents

/-- The tokens successively produced by `get_next_indent` (`lexer.rs` lines
105-142) while draining one entry of value `e`: a negative entry is bumped by
`+1` per step and emits `Newline` on even values and `Dedent` on odd ones; a
positive entry emits `Indent` and is decreased by 2; the entry is removed at
0.  (A zero-valued entry panics — `invalid state` — before emitting anything;
such entries are excluded by hypothesis in the theorems.)  The fuel is only an
upper bound on the number of steps. -/
def drainEntry : Nat → Int → List IndentResult
  | 0, _ => []
  | f + 1, e =>
    if e < 0 then
      (if e % 2 = 0 then IndentResult.Newline else IndentResult.Dedent)
        :: drainEntry f (e + 1)
    else if 0 < e then IndentResult.Indent :: drainEntry f (e - 2)
    else []

/-- All tokens drained from one indentation entry. -/
def entryTokens (e : Int) : List IndentResult :=
  drainEntry (2 * e.natAbs) e

/-- The IDEALIZED `Indent`/`Dedent`/`Newline` sub-stream: every entry drained
in ascending position order.  This is the lexer's actual emission only when
its character cursor reaches every entry's exact position; `get_next_indent`
below models the position gate of the real consumption, under which entries
can be skipped (and, once skipped, block all later entries). -/
def indentTokenStream (entries : List (Nat × Int)) : List IndentResult :=
  (entries.map fun p => entryTokens p.2).flatten

/-- `get_next_indent` (`lexer.rs` lines 105-142), one call: look at the FIRST
entry of the map (the assoc list is kept in ascending key order, matching the
`BTreeMap`'s `first_entry`); if its key differs from the lexer's current
position, produce no token; a zero-valued entry panics (`invalid state`);
otherwise emit one token — negative entries are bumped by `+1` and emit
`Newline` (even) or `Dedent` (odd), positive entries emit `Indent` and drop by
2 — and the entry is removed when it reaches 0. -/
def get_next_indent (position : Nat) :
    List (Nat × Int) → Except EvalErr (Option (IndentResult × List (Nat × Int)))
  | [] => .ok Option.none
  | (ipos, e) :: rest =>
    if ipos ≠ position then .ok Option.none
    else if e < 0 then
      let tok := if e % 2 = 0 then IndentResult.Newline else IndentResult.Dedent
      .ok (some (tok, if e + 1 = 0 then rest else (ipos, e + 1) :: rest))
    else if 0 < e then
      .ok (some (IndentResult.Indent,
        if e - 2 = 0 then rest else (ipos, e - 2) :: rest))
    else .error .fatal

/-- The `Lexer::next` loop keeps calling `get_next_indent` at its current
position until it stops firing (each call emits one token); only then does it
advance the cursor with `take_token`.  This drains the tokens produced while
the cursor sits at `position`. -/
def drainHere (fuel : Nat) (position : Nat) (entries : List (Nat × Int)) :
    Except EvalErr (List IndentResult × List (Nat × Int)) :=
  match fuel with
  | 0 => .error .outOfFuel
  | f + 1 =>
    match get_next_indent position entries with
    | .error e => .error e
    | .ok Option.none => .ok ([], entries)
    | .ok (some (tok, entries')) =>
      (drainHere f position entries').map fun p => (tok :: p.1, p.2)

/-- The `Indent`/`Dedent`/`Newline` tokens the lexer actually emits, given the
successive values its character cursor `self.position` takes (one value per
`take_token` step plus the initial 0; the cursor moves to each consumed
token's span end, so it can jump over an entry's position when a token — a
multi-line string literal — spans it). -/
def lexerIndentTokens (fuel : Nat) (positions : List Nat)
    (entries : List (Nat × Int)) : Except EvalErr (List IndentResult) :=
  match positions with
  | [] => .ok []
  | p :: rest =>
    match drainHere fuel p entries with
    | .error e => .error e
    | .ok (ts, entries') =>
      (lexerIndentTokens fuel rest entries').map fun ts' => ts ++ ts'

/-- Indent-minus-dedent balance of a token list. -/
def bal (ts : List IndentResult) : Int :=
  (ts.count IndentResult.Indent : Int) - (ts.count IndentResult.Dedent : Int)

/-- Well-nestedness of a token stream: no prefix closes more levels than were
opened, and the whole stream closes every level it opens. -/
def wellNested (ts : List IndentResult) : Prop :=
  (∀ n ∈ List.range (ts.length + 1), 0 ≤ bal (ts.take n)) ∧ bal ts = 0

instance (ts : List IndentResult) : Decidable (wellNested ts) := by
  unfold wellNested
  infer_instance

/-! ## Derived definitions and observers used by the claims -/

/-- Success predicate on a `Result`. -/
def okE {ε α : Type _} (x : Except ε α) : Prop := ∃ a, x = .ok a

/-- Observer for an iterator: the values produced by the `while let Some(val) =
iter.next()` consumption pattern of `ForIn`, up to `fuel` steps. -/
def iterTake : Nat → Iter → List Value
  | 0, _ => []
  | f + 1, it =>
    match it.next with
    | Option.none => []
    | some (v, it') => v :: iterTake f it'

/-- Number of values a valid range start..stop (exclusive) with positive step
yields: the ceiling of (stop - start) / step. -/
def rangeCount (s e stp : Int) : Nat :=
  ((e - s).toNat + stp.toNat - 1) / stp.toNat

/-- The spec's example program `let foo=5; if true: let foo=10; return foo`. -/
def shadowProg : List Expr :=
  [.assignNew "foo" (.i64 5),
   .ifElse (.bool true) [.assignNew "foo" (.i64 10)] Option.none,
   .ret (.var "foo")]

/-- The spec's example `result = 0; for i in range(3,5): result += 2*i;
return result`. -/
def rangeSumProg : List Expr :=
  [.assignNew "result" (.i64 0),
   .forIn (.range (.i64 3) (.i64 5) Option.none) "i"
     [.addEquals "result" (.multiply (.i64 2) (.var "i"))],
   .ret (.var "result")]

/-- Probe program for C4: build a one-entry map, call `m.values()`, then
report `m.len()`. -/
def valuesProg : List Expr :=
  [.assignNew "m" (.dictionary [("a", .i64 5)]),
   .assignNew "x" (.call (.getMember (.var "m") "values") []),
   .ret (.call (.getMember (.var "m") "len") [])]

/-- Probe program for C10: branch on the pre-bound variable `c`, returning 1
from the if body and 2 from the else body. -/
def condProg : List Expr :=
  [.ifElse (.var "c") [.ret (.i64 1)] (some [.ret (.i64 2)])]

/-- Observer: evaluate one expression to its unwrapped value (the composition
`step(...).1.unwrap_value()` pervasive in the interpreter). -/
def evalValue (fuel : Nat) (st : St) (e : Expr) : Except EvalErr Value := do
  let (o, st') ← exec fuel st (.one e)
  let h ← o.handle
  unwrapValue st' h

/-- Sum of the signed indentation deltas of a (prefix of the) entry list. -/
def sumSnd (l : List (Nat × Int)) : Int :=
  (l.map Prod.snd).sum

/-- Invariant of the `parse_indents` scan: the indentation stack ends in the
sentinel level 0, all recorded deltas are even, their sum is twice the number
of currently open levels, and every prefix sum is non-negative. -/
def PIInv (st : PIState) : Prop :=
  (∃ mid : List Nat, st.stack = mid ++ [0]) ∧
  (∀ p ∈ st.indents, p.2 % 2 = 0) ∧
  sumSnd st.indents = 2 * ((st.stack.length : Int) - 1) ∧
  (∀ n : Nat, 0 ≤ sumSnd (st.indents.take n))

/-! ## General helper lemmas -/

theorem okE_map {ε α β : Type _} (f : α → β) (x : Except ε α) :
    okE (x.map f) ↔ okE x := by
  cases x <;> simp [okE, Except.map]

theorem wrapI64_eq_self {x : Int} (h1 : -(2 ^ 63) ≤ x) (h2 : x < 2 ^ 63) :
    wrapI64 x = x := by
  unfold wrapI64
  omega

theorem heapGet_concat_length (heap : List Value) (v : Value) :
    heapGet (heap ++ [v]) heap.length = .ok v := by
  unfold heapGet
  rw [List.getElem?_concat_length]

theorem heapGet_append_left (heap tail : List Value) (a : Nat)
    (h : a < heap.length) : heapGet (heap ++ tail) a = heapGet heap a := by
  unfold heapGet
  rw [List.getElem?_append_left h]

theorem heapGet_append_add (heap l : List Value) (i : Nat) :
    heapGet (heap ++ l) (heap.length + i) = heapGet l i := by
  unfold heapGet
  rw [List.getElem?_append_right (by omega)]
  simp

/-! ## C3 — the u8-suffixed literal rule -/

/-- C3: the `u8` literal rule is off by one.  The guard in `take_token`
(`lexer.rs` lines 184-193) rejects only `i < 0 || i > 256`, so the value 256 —
which the spec's range `0–256 exclusive` excludes — is accepted, and the
`as u8` cast silently wraps it to the token `U8Literal(0)`.  Values in
`0..=255` lex as the claim states, and values above 256 are fatal; 256 is the
sole divergence. -/
theorem c3_u8_literal_rule_at_256 :
    u8_literal_rule 256 = .ok (.U8Literal 0) ∧
    (∀ i : Int, 256 < i → u8_literal_rule i = .error .fatal) ∧
    (∀ i : Int, i < 0 → u8_literal_rule i = .error .fatal) ∧
    (∀ i : Int, 0 ≤ i → i < 256 → u8_literal_rule i = .ok (.U8Literal i.toNat)) := by
  refine ⟨rfl, ?_, ?_, ?_⟩
  · intro i hi
    simp [u8_literal_rule]
    omega
  · intro i hi
    simp [u8_literal_rule]
    omega
  · intro i h0 h256
    have hne : ¬(i < 0 ∨ 256 < i) := by omega
    have hmod : i % 256 = i := Int.emod_eq_of_lt h0 h256
    simp [u8_literal_rule, hne, hmod]

/-- Witness for C3: a value above the bound is fatal, a value below lexes
exactly. -/
theorem c3_u8_literal_rule_at_256_witness :
    u8_literal_rule 300 = .error .fatal ∧ u8_literal_rule 7 = .ok (.U8Literal 7) :=
  ⟨c3_u8_literal_rule_at_256.2.1 300 (by decide),
   c3_u8_literal_rule_at_256.2.2.2 7 (by decide) (by decide)⟩

/-! ## C2 — map_insert on an existing key -/

theorem assocInsert_fst (k : String) (v : Value) :
    ∀ entries : List (String × Value),
      (Value.assocInsert k v entries).1 = entries.lookup k := by
  intro entries
  induction entries with
  | nil => simp [Value.assocInsert, List.lookup]
  | cons p rest ih =>
    obtain ⟨k₁, v₁⟩ := p
    by_cases hk : k₁ = k
    · subst hk
      simp [Value.assocInsert, List.lookup]
    · have hk' : ¬(k == k₁) = true := by simpa [beq_iff_eq] using fun h => hk h.symm
      simp [Value.assocInsert, List.lookup, hk, hk', ih]

theorem assocInsert_lookup_self (k : String) (v : Value) :
    ∀ entries : List (String × Value),
      ((Value.assocInsert k v entries).2).lookup k = some v := by
  intro entries
  induction entries with
  | nil => simp [Value.assocInsert, List.lookup]
  | cons p rest ih =>
    obtain ⟨k₁, v₁⟩ := p
    by_cases hk : k₁ = k
    · subst hk
      simp [Value.assocInsert, List.lookup]
    · have hk' : ¬(k == k₁) = true := by simpa [beq_iff_eq] using fun h => hk h.symm
      simp [Value.assocInsert, List.lookup, hk, hk', ih]

theorem assocInsert_lookup_other (k : String) (v : Value) (k' : String)
    (hne : k' ≠ k) :
    ∀ entries : List (String × Value),
      ((Value.assocInsert k v entries).2).lookup k' = entries.lookup k' := by
  intro entries
  have hb : (k' == k) = false := beq_false_of_ne hne
  induction entries with
  | nil => simp [Value.assocInsert, List.lookup, hb]
  | cons p rest ih =>
    obtain ⟨k₁, v₁⟩ := p
    by_cases hk : k₁ = k
    · subst hk
      simp [Value.assocInsert, List.lookup, hb]
    · simp [Value.assocInsert, List.lookup, hk, ih]

/-- C2 counterexample: re-inserting key `"k"` (bound to `1`) with value `2`
does return `FieldAlreadyExists`, but the map is NOT left unchanged — the
`HashMap::insert` in `Value::map_insert` (`values/mod.rs` lines 349-364)
already overwrote the binding, so `"k"` now maps to the new value `2`. -/
theorem c2_counterexample :
    Value.map_insert (.map [("k", .i64 1)]) "k" (.i64 2)
      = (.error .fieldAlreadyExists, .map [("k", .i64 2)]) ∧
    (Value.map_insert (.map [("k", .i64 1)]) "k" (.i64 2)).2
      ≠ .map [("k", .i64 1)] := by
  constructor
  · rfl
  · intro h
    simp [Value.map_insert, Value.assocInsert] at h

/-- C2 (amended): for every map and key `k` already present, `map_insert`
returns `FieldAlreadyExists`, but the receiver is mutated: `k` now maps to the
NEW value, while every other key's binding is unchanged and no entry is added
or removed. -/
theorem c2_map_insert_existing (entries : List (String × Value)) (k : String)
    (v old : Value) (h : entries.lookup k = some old) :
    (Value.map_insert (.map entries) k v).1 = .error .fieldAlreadyExists ∧
    ((Value.map_insert (.map entries) k v).2
        = .map (Value.assocInsert k v entries).2 ∧
      ((Value.assocInsert k v entries).2).lookup k = some v ∧
      (∀ k', k' ≠ k →
        ((Value.assocInsert k v entries).2).lookup k' = entries.lookup k') ∧
      (Value.assocInsert k v entries).2.length = entries.length) := by
  have hfst : (Value.assocInsert k v entries).1 = some old := by
    rw [assocInsert_fst]; exact h
  refine ⟨?_, ?_, assocInsert_lookup_self k v entries,
    fun k' hk' => assocInsert_lookup_other k v k' hk' entries, ?_⟩
  · simp [Value.map_insert, hfst]
  · simp [Value.map_insert, hfst]
  · clear hfst
    induction entries with
    | nil => simp [List.lookup] at h
    | cons p rest ih =>
      obtain ⟨k₁, v₁⟩ := p
      by_cases hk : k₁ = k
      · subst hk
        simp [Value.assocInsert]
      · have hk' : ¬(k == k₁) = true := by
          simpa [beq_iff_eq] using fun hh => hk hh.symm
        simp only [List.lookup, hk'] at h
        simp [Value.assocInsert, hk, ih h]

/-- Witness for C2's amended theorem at a concrete map. -/
theorem c2_map_insert_existing_witness :
    (Value.map_insert (.map [("k", .i64 1), ("j", .bool true)]) "k" (.i64 2)).1
      = .error .fieldAlreadyExists ∧
    (Value.map_insert (.map [("k", .i64 1), ("j", .bool true)]) "k" (.i64 2)).2
      = .map (Value.assocInsert "k" (.i64 2) [("k", .i64 1), ("j", .bool true)]).2 :=
  ⟨(c2_map_insert_existing [("k", .i64 1), ("j", .bool true)] "k" (.i64 2) (.i64 1) rfl).1,
   (c2_map_insert_existing [("k", .i64 1), ("j", .bool true)] "k" (.i64 2) (.i64 1) rfl).2.1⟩

/-! ## C5 — numeric promotion surface of add/multiply/comparisons -/

/-- C5 counterexample: the right operand `U8 3` does convert to the left
operand's width (`TryInto<u8>` succeeds), and `add` on a `U8` left operand
succeeds accordingly — but `multiply` has no `U8` arm at all
(`values/mod.rs` lines 220-238) and fails with `OperationNotSupported`, and
the comparisons likewise fail with `TypeMismatch`, contradicting the claim
that they accept a `U8` left operand on the same terms as `add`. -/
theorem c5_counterexample :
    tryIntoU8 (.u8 3) = .ok 3 ∧
    Value.add (.u8 2) (.u8 3) = .ok (.u8 5) ∧
    Value.multiply (.u8 2) (.u8 3) = .error .operationNotSupported ∧
    Value.is_greater_than (.u8 2) (.u8 3) = .error .typeMismatch ∧
    Value.is_smaller_than (.u8 2) (.u8 3) = .error .typeMismatch ∧
    Value.equals (.u8 2) (.u8 3) = .error .typeMismatch :=
  ⟨rfl, rfl, rfl, rfl, rfl, rfl⟩

/-- C5 (amended): for a left operand tagged `I64`, `U64` or `F64`, the
operations `add`, `multiply`, `is_greater_than`, `is_smaller_than` (and
`equals` for these tags) succeed exactly when the right operand converts into
the left operand's numeric width via the `TryInto` impls; a `U8` left operand
is accepted by `add` alone (exactly when the right operand converts via
`TryInto<u8>`), while `multiply` on a `U8` left operand always fails with
`OperationNotSupported` and the three comparisons always fail with
`TypeMismatch`. -/
theorem c5_numeric_dispatch :
    (∀ (x : Int) (r : Value),
      (okE (Value.add (.i64 x) r) ↔ okE (tryIntoI64 r)) ∧
      (okE (Value.multiply (.i64 x) r) ↔ okE (tryIntoI64 r)) ∧
      (okE (Value.is_greater_than (.i64 x) r) ↔ okE (tryIntoI64 r)) ∧
      (okE (Value.is_smaller_than (.i64 x) r) ↔ okE (tryIntoI64 r)) ∧
      (okE (Value.equals (.i64 x) r) ↔ okE (tryIntoI64 r))) ∧
    (∀ (x : Nat) (r : Value),
      (okE (Value.add (.u64 x) r) ↔ okE (tryIntoU64 r)) ∧
      (okE (Value.multiply (.u64 x) r) ↔ okE (tryIntoU64 r)) ∧
      (okE (Value.is_greater_than (.u64 x) r) ↔ okE (tryIntoU64 r)) ∧
      (okE (Value.is_smaller_than (.u64 x) r) ↔ okE (tryIntoU64 r)) ∧
      (okE (Value.equals (.u64 x) r) ↔ okE (tryIntoU64 r))) ∧
    (∀ (x : ℚ) (r : Value),
      (okE (Value.add (.f64 x) r) ↔ okE (tryIntoF64 r)) ∧
      (okE (Value.multiply (.f64 x) r) ↔ okE (tryIntoF64 r)) ∧
      (okE (Value.is_greater_than (.f64 x) r) ↔ okE (tryIntoF64 r)) ∧
      (okE (Value.is_smaller_than (.f64 x) r) ↔ okE (tryIntoF64 r)) ∧
      (okE (Value.equals (.f64 x) r) ↔ okE (tryIntoF64 r))) ∧
    (∀ (x : Nat) (r : Value),
      (okE (Value.add (.u8 x) r) ↔ okE (tryIntoU8 r)) ∧
      Value.multiply (.u8 x) r = .error .operationNotSupported ∧
      Value.is_greater_than (.u8 x) r = .error .typeMismatch ∧
      Value.is_smaller_than (.u8 x) r = .error .typeMismatch ∧
      Value.equals (.u8 x) r = .error .typeMismatch) := by
  refine ⟨?_, ?_, ?_, ?_⟩
  · intro x r
    exact ⟨okE_map _ _, okE_map _ _, okE_map _ _, okE_map _ _, okE_map _ _⟩
  · intro x r
    exact ⟨okE_map _ _, okE_map _ _, okE_map _ _, okE_map _ _, okE_map _ _⟩
  · intro x r
    exact ⟨okE_map _ _, okE_map _ _, okE_map _ _, okE_map _ _, okE_map _ _⟩
  · intro x r
    exact ⟨okE_map _ _, rfl, rfl, rfl, rfl⟩

/-! ## C8 — U64 → I64 → U64 cast round-trip -/

/-- C8: for every `u64` payload `n` that is representable as a non-negative
`i64` (`n ≤ 2^63 - 1`), evaluating `(n as i64) as u64` through the
interpreter's `Cast` arms (`interpreter/mod.rs` lines 501-523) and the
`TryInto` conversions yields `U64 n` again.  (The `U64 → i64` conversion is an
unchecked `as` cast, which is the identity precisely on this range.) -/
theorem c8_cast_round_trip (f : Nat) (st : St) (n : Nat) (h : n ≤ 2 ^ 63 - 1) :
    evalValue (f + 3) st (.cast (.cast (.u64 n) .i64) .u64) = .ok (.u64 n) := by
  have hwrap : wrapI64 (n : Int) = (n : Int) :=
    wrapI64_eq_self (by omega) (by omega)
  have hmod : (((n : Int) % 2 ^ 64).toNat) = n := by omega
  simp [evalValue, exec, allocCell, Out.handle, ofVE, tryIntoI64, tryIntoU64,
    unwrapValue, heapGet_concat_length, heapGet_append_add, heapGet, hwrap,
    hmod, bind, Except.bind, List.getElem_append_right, Nat.add_sub_cancel_left]
  omega

/-- Witness for C8 at `n = 5`. -/
theorem c8_cast_round_trip_witness :
    evalValue 3 ⟨[], [[]]⟩ (.cast (.cast (.u64 5) .i64) .u64) = .ok (.u64 5) :=
  c8_cast_round_trip 0 ⟨[], [[]]⟩ 5 (by omega)

/-! ## C10 — integer if-conditions and fatal condition tags -/

/-- C10: the `if` condition goes through `Value::as_bool` (`values/mod.rs`
lines 444-452) and the interpreter's `.unwrap()`: an `I64` or `U64` condition
never fails, and the if-body runs exactly when the integer is strictly
positive (0 and negative `I64` values select the else branch); a condition
whose value is a `Str`, `Map`, `List`, `Bytes`, `F32`, `F64` or `None` makes
the run fatal. -/
theorem c10_if_condition :
    (∀ (f : Nat) (x : Int),
      runProgram (f + 5) [("c", .i64 x)] condProg
        = .ok (.i64 (if 0 < x then 1 else 2))) ∧
    (∀ (f : Nat) (n : Nat),
      runProgram (f + 5) [("c", .u64 n)] condProg
        = .ok (.i64 (if 0 < n then 1 else 2))) ∧
    (∀ (f : Nat) (s : String),
      runProgram (f + 5) [("c", .str s)] condProg = .error .fatal) ∧
    (∀ (f : Nat) (entries : List (String × Value)),
      runProgram (f + 5) [("c", .map entries)] condProg = .error .fatal) ∧
    (∀ (f : Nat) (elems : List Value),
      runProgram (f + 5) [("c", .list elems)] condProg = .error .fatal) ∧
    (∀ (f : Nat) (bs : List Nat),
      runProgram (f + 5) [("c", .bytes bs)] condProg = .error .fatal) ∧
    (∀ (f : Nat) (q : ℚ),
      runProgram (f + 5) [("c", .f32 q)] condProg = .error .fatal) ∧
    (∀ (f : Nat) (q : ℚ),
      runProgram (f + 5) [("c", .f64 q)] condProg = .error .fatal) ∧
    (∀ f : Nat, runProgram (f + 5) [("c", Value.none)] condProg = .error .fatal) := by
  refine ⟨?_, ?_, ?_, ?_, ?_, ?_, ?_, ?_, ?_⟩
  · intro f x
    by_cases hx : 0 < x <;>
      simp [runProgram, condProg, initState, exec, allocCell, Out.handle, ofVE,
        scopesGet, lookupScopes, Handle.try_clone, unwrapValue, heapGet,
        Value.as_bool, pushScope, popScope, assocSetHandle, hx,
        bind, Except.bind]
  · intro f n
    by_cases hn : 0 < n <;>
      simp [runProgram, condProg, initState, exec, allocCell, Out.handle, ofVE,
        scopesGet, lookupScopes, Handle.try_clone, unwrapValue, heapGet,
        Value.as_bool, pushScope, popScope, assocSetHandle, hn,
        bind, Except.bind]
  all_goals
    intros
    simp [runProgram, condProg, initState, exec, allocCell, Out.handle, ofVE,
      scopesGet, lookupScopes, Handle.try_clone, unwrapValue, heapGet,
      Value.as_bool, bind, Except.bind]

/-! ## C7 — let-shadowing in nested scopes -/

/-- C7: an `AssignNew` in a freshly pushed block scope always succeeds and
binds only in that innermost scope (`Scopes::create_variable`, `scopes.rs`
lines 51-62), lookups during the block see the inner binding first
(`Scopes::get` walks innermost-outward), and popping the block scope restores
the scope stack — and hence every outer binding — exactly; the spec's probe
program `let foo=5; if true: let foo=10; return foo` accordingly returns 5. -/
theorem c7_shadowing :
    (∀ (st : St) (name : String) (hdl : Handle),
      createVariable (pushScope st) name hdl
        = .ok ⟨st.heap, [(name, hdl)] :: st.scopes⟩) ∧
    (∀ (name : String) (hdl : Handle) (scopes : List Scope),
      lookupScopes ([(name, hdl)] :: scopes) name = some hdl) ∧
    (∀ (heap : List Value) (inner sc : Scope) (rest : List Scope),
      popScope ⟨heap, inner :: sc :: rest⟩ = .ok ⟨heap, sc :: rest⟩) ∧
    runProgram 30 [] shadowProg = .ok (.i64 5) := by
  refine ⟨?_, ?_, ?_, rfl⟩
  · intro st name hdl
    rfl
  · intro name hdl scopes
    simp [lookupScopes, List.lookup]
  · intro heap inner sc rest
    rfl

/-! ## C4 — the values() builtin does not drain the receiver -/

/-- C4 counterexample: after `let m = {'a': 5}` and a call `m.values()`, the
program returns `m.len()` — which is still 1.  The claim states the receiver
map is drained/moved by the `values()` call, which would give length 0; the
builtin (`interpreter/mod.rs` lines 364-376) in fact clones the cell's value,
drains the clone, and swaps the untouched original back into the cell. -/
theorem c4_counterexample :
    runProgram 50 [] valuesProg = .ok (.u64 1) := rfl

/-- C4 (amended): calling `values()` on a map-valued cell returns a fresh list
holding exactly the map's values, and the receiver cell is left unchanged —
the final state is the input state plus the single result cell. -/
theorem c4_values_keeps_receiver (f : Nat) (st : St) (a : Nat)
    (entries : List (String × Value))
    (hb : lookupScopes st.scopes "m" = some (.value a))
    (hv : heapGet st.heap a = .ok (.map entries)) :
    exec (f + 3) st (.one (.call (.getMember (.var "m") "values") []))
      = .ok (.flow .Continue (.value st.heap.length),
          ⟨st.heap ++ [.list (entries.map Prod.snd)], st.scopes⟩) := by
  simp [exec, scopesGet, hb, hv, Handle.try_clone, Out.handle, ofVE,
    allocCell, Value.into_map, bind, Except.bind, pure, Except.pure]

/-- Witness for C4's amended theorem: a concrete two-entry map. -/
theorem c4_values_keeps_receiver_witness :
    exec 3 ⟨[.map [("a", .i64 5), ("b", .bool true)], .i64 9],
            [[("m", .value 0)], [("y", .value 1)]]⟩
        (.one (.call (.getMember (.var "m") "values") []))
      = .ok (.flow .Continue (.value 2),
          ⟨[.map [("a", .i64 5), ("b", .bool true)], .i64 9,
            .list [.i64 5, .bool true]],
           [[("m", .value 0)], [("y", .value 1)]]⟩) :=
  c4_values_keeps_receiver 0
    ⟨[.map [("a", .i64 5), ("b", .bool true)], .i64 9],
     [[("m", .value 0)], [("y", .value 1)]]⟩
    0 [("a", .i64 5), ("b", .bool true)] rfl rfl

/-! ## C6 — range construction, fatality conditions and yielded values -/

theorem iterTake_range_closed (stp : Int) (h1 : 0 < stp) :
    ∀ (fuel : Nat) (s e : Int), s ≤ e → -(2 ^ 63) ≤ s → e + stp < 2 ^ 63 →
      (e - s).toNat < fuel →
      iterTake fuel (.range e stp s)
        = (List.range (rangeCount s e stp)).map (fun k => .i64 (s + stp * k)) := by
  intro fuel
  induction fuel with
  | zero => intro s e hse hlo hhi hd; omega
  | succ f ih =>
    intro s e hse hlo hhi hd
    have ht : 0 < stp.toNat := by omega
    by_cases hlt : s < e
    · have hwrap : wrapI64 (s + stp) = s + stp := wrapI64_eq_self (by omega) (by omega)
      by_cases hle : s + stp ≤ e
      · have hc : rangeCount s e stp = rangeCount (s + stp) e stp + 1 := by
          unfold rangeCount
          rw [show (e - s).toNat = (e - (s + stp)).toNat + stp.toNat by omega]
          rw [show (e - (s + stp)).toNat + stp.toNat + stp.toNat - 1
              = ((e - (s + stp)).toNat + stp.toNat - 1) + stp.toNat by omega]
          rw [Nat.add_div_right _ ht]
        rw [hc]
        simp only [iterTake, Iter.next, hlt, if_pos, hwrap]
        rw [ih (s + stp) e hle (by omega) hhi (by omega)]
        rw [List.range_succ_eq_map, List.map_cons, List.map_map]
        refine List.cons_eq_cons.mpr ⟨by norm_num, ?_⟩
        apply List.map_congr_left
        intro k _
        simp only [Function.comp]
        congr 1
        push_cast
        ring
      · have hz : iterTake f (.range e stp (s + stp)) = [] := by
          have hnot : ¬ (s + stp < e) := by omega
          cases f with
          | zero => rfl
          | succ f' => simp [iterTake, Iter.next, hnot]
        have hc : rangeCount s e stp = 1 := by
          unfold rangeCount
          apply Nat.div_eq_of_lt_le
          · omega
          · omega
        simp only [iterTake, Iter.next, hlt, if_pos, hwrap, hz, hc]
        simp [List.range_succ]
    · have heq : (e - s).toNat = 0 := by omega
      have hc : rangeCount s e stp = 0 := by
        unfold rangeCount
        rw [heq]
        exact Nat.div_eq_of_lt (by omega)
      simp [iterTake, Iter.next, hlt, hc]

theorem rangeCount_bounds (s e stp : Int) (h1 : 0 < stp) (hse : s ≤ e) :
    (∀ k : Nat, k < rangeCount s e stp → s + stp * k < e) ∧
    e ≤ s + stp * (rangeCount s e stp) := by
  have ht : 0 < stp.toNat := by omega
  have hstp : (stp.toNat : Int) = stp := Int.toNat_of_nonneg (by omega)
  have hd : (((e - s).toNat : Int)) = e - s := Int.toNat_of_nonneg (by omega)
  unfold rangeCount
  constructor
  · intro k hk
    have hmul : stp.toNat * (k + 1)
        ≤ stp.toNat * (((e - s).toNat + stp.toNat - 1) / stp.toNat) :=
      Nat.mul_le_mul_left _ hk
    have key := Nat.div_add_mod ((e - s).toNat + stp.toNat - 1) stp.toNat
    have hmod := Nat.mod_lt ((e - s).toNat + stp.toNat - 1) ht
    have hexp : stp.toNat * (k + 1) = stp.toNat * k + stp.toNat := by ring
    have hlin : stp.toNat * k < (e - s).toNat := by
      generalize hA : stp.toNat * (((e - s).toNat + stp.toNat - 1) / stp.toNat) = A
        at hmul key
      generalize hR : ((e - s).toNat + stp.toNat - 1) % stp.toNat = R at key hmod
      generalize hC : stp.toNat * (k + 1) = C at hmul hexp
      generalize hB : stp.toNat * k = B at hexp ⊢
      omega
    have hlin' : (stp.toNat : Int) * (k : Int) < (((e - s).toNat : Int)) := by
      exact_mod_cast hlin
    rw [hstp, hd] at hlin'
    linarith
  · have key := Nat.div_add_mod ((e - s).toNat + stp.toNat - 1) stp.toNat
    have hmod := Nat.mod_lt ((e - s).toNat + stp.toNat - 1) ht
    have hge : (e - s).toNat
        ≤ stp.toNat * (((e - s).toNat + stp.toNat - 1) / stp.toNat) := by
      generalize hA : stp.toNat * (((e - s).toNat + stp.toNat - 1) / stp.toNat) = A
        at key ⊢
      generalize hR : ((e - s).toNat + stp.toNat - 1) % stp.toNat = R at key hmod
      omega
    have hge' : (((e - s).toNat : Int))
        ≤ (stp.toNat : Int)
            * (((((e - s).toNat + stp.toNat - 1) / stp.toNat : Nat)) : Int) := by
      exact_mod_cast hge
    rw [hstp, hd] at hge'
    linarith

/-- C6 counterexample: `range(2^63-2, 2^63-1, 3)` is a valid range (start ≤
end, step > 0) and constructs without a fatal error, but the claimed yield
sequence — exactly the progression values strictly below `end`, here just
`[2^63-2]` — is NOT what the iterator produces: `RangeIterable::next`
computes `pos + step` in i64, which wraps to `1 - 2^63`, still below `end`,
so the iterator keeps yielding values BELOW start (neither the claimed set
nor increasing order). -/
theorem c6_counterexample :
    exec 2 (⟨[], [[]]⟩ : St)
        (.one (.range (.i64 (2 ^ 63 - 2)) (.i64 (2 ^ 63 - 1)) (some (.i64 3))))
      = .ok (.flow .Continue (.iter (.range (2 ^ 63 - 1) 3 (2 ^ 63 - 2))),
          ⟨[.i64 (2 ^ 63 - 2), .i64 (2 ^ 63 - 1), .i64 3], [[]]⟩) ∧
    iterTake 2 (.range (2 ^ 63 - 1) 3 (2 ^ 63 - 2))
      = [.i64 (2 ^ 63 - 2), .i64 (1 - 2 ^ 63)] ∧
    (List.range (rangeCount (2 ^ 63 - 2) (2 ^ 63 - 1) 3)).map
        (fun k => Value.i64 (2 ^ 63 - 2 + 3 * k))
      = [.i64 (2 ^ 63 - 2)] ∧
    (1 - 2 ^ 63 : Int) < 2 ^ 63 - 2 := by
  refine ⟨rfl, rfl, rfl, by decide⟩

/-- C6 (amended): evaluating `range(start, end)` or `range(start, end, step)`
on i64 literals is fatal exactly when `start > end` or `step ≤ 0` (`step`
defaults to 1); otherwise it produces the iterator
`RangeIterable{end, step, pos=start}`.  Provided `pos + step` never overflows
i64 (`end + step < 2^63`, with `start` in i64 range), consumption yields
precisely the arithmetic progression start, start+step, … of the values
strictly below `end`, in increasing order; when it overflows, the position
wraps (two's complement) and the yields leave the claimed progression — see
the counterexample.  The spec's probe `result=0; for i in range(3,5):
result += 2*i; return result` yields 14. -/
theorem c6_range_semantics :
    (∀ (f : Nat) (st : St) (s e : Int),
      exec (f + 2) st (.one (.range (.i64 s) (.i64 e) Option.none))
        = if e < s then .error .fatal
          else .ok (.flow .Continue (.iter (.range e 1 s)),
            ⟨st.heap ++ [.i64 s, .i64 e], st.scopes⟩)) ∧
    (∀ (f : Nat) (st : St) (s e stp : Int),
      exec (f + 2) st (.one (.range (.i64 s) (.i64 e) (some (.i64 stp))))
        = if e < s ∨ stp ≤ 0 then .error .fatal
          else .ok (.flow .Continue (.iter (.range e stp s)),
            ⟨st.heap ++ [.i64 s, .i64 e, .i64 stp], st.scopes⟩)) ∧
    (∀ (s e stp : Int) (fuel : Nat), 0 < stp → s ≤ e → -(2 ^ 63) ≤ s →
      e + stp < 2 ^ 63 → (e - s).toNat < fuel →
      iterTake fuel (.range e stp s)
        = (List.range (rangeCount s e stp)).map (fun k => .i64 (s + stp * k))) ∧
    (∀ s e stp : Int, 0 < stp → s ≤ e →
      (∀ k : Nat, k < rangeCount s e stp → s + stp * k < e) ∧
      e ≤ s + stp * (rangeCount s e stp)) ∧
    runProgram 50 [] rangeSumProg = .ok (.i64 14) := by
  refine ⟨?_, ?_, ?_, ?_, rfl⟩
  · intro f st s e
    by_cases he : e < s <;>
      simp [exec, allocCell, Out.handle, ofVE, tryIntoI64, unwrapValue,
        heapGet_concat_length, heapGet_append_add, heapGet,
        List.getElem_append_right, Nat.add_sub_cancel_left, he,
        bind, Except.bind, pure, Except.pure]
  · intro f st s e stp
    by_cases he : e < s
    · simp [exec, allocCell, Out.handle, ofVE, tryIntoI64, unwrapValue,
        heapGet_concat_length, heapGet_append_add, heapGet,
        List.getElem_append_right, Nat.add_sub_cancel_left, he,
        bind, Except.bind, pure, Except.pure]
    · by_cases hs : stp ≤ 0 <;>
        simp [exec, allocCell, Out.handle, ofVE, tryIntoI64, unwrapValue,
          heapGet_concat_length, heapGet_append_add, heapGet,
          List.getElem_append_right, Nat.add_sub_cancel_left, he, hs,
          bind, Except.bind, pure, Except.pure]
  · intro s e stp fuel h1 hse hlo hhi hf
    exact iterTake_range_closed stp h1 fuel s e hse hlo hhi hf
  · intro s e stp h1 hse
    exact rangeCount_bounds s e stp h1 hse

/-- Witness for C6: `range(3, 5)` yields exactly `[3, 4]`, `range(5, 3)` is
fatal, `range(1, 4, 0)` is fatal, and the probe program computes 14. -/
theorem c6_range_semantics_witness :
    exec 2 ⟨[], [[]]⟩ (.one (.range (.i64 5) (.i64 3) Option.none))
      = .error .fatal ∧
    exec 2 ⟨[], [[]]⟩ (.one (.range (.i64 1) (.i64 4) (some (.i64 0))))
      = .error .fatal ∧
    iterTake 3 (.range 5 1 3)
      = (List.range (rangeCount 3 5 1)).map (fun k => .i64 (3 + 1 * k)) ∧
    (3 : Int) + 1 * ((0 : Nat) : Int) < 5 ∧
    (5 : Int) ≤ 3 + 1 * (rangeCount 3 5 1) ∧
    runProgram 50 [] rangeSumProg = .ok (.i64 14) := by
  refine ⟨?_, ?_, ?_, ?_, ?_, c6_range_semantics.2.2.2.2⟩
  · have h := c6_range_semantics.1 0 ⟨[], [[]]⟩ 5 3
    simpa using h
  · have h := c6_range_semantics.2.1 0 ⟨[], [[]]⟩ 1 4 0
    simpa using h
  · exact c6_range_semantics.2.2.1 3 5 1 3 (by norm_num) (by norm_num)
      (by norm_num) (by norm_num) (by norm_num)
  · exact (c6_range_semantics.2.2.2.1 3 5 1 (by norm_num) (by norm_num)).1 0
      (by norm_num [rangeCount])
  · exact (c6_range_semantics.2.2.2.1 3 5 1 (by norm_num) (by norm_num)).2

/-! ## C1 — run returns the first Return's value and skips the rest -/

theorem exec_seq_cons (g : Nat) (st : St) (s : Expr) (l : List Expr) :
    exec (g + 1) st (.seq (s :: l)) =
      match exec g st (.one s) with
      | .error e => .error e
      | .ok (.flow .Return h, st₁) => .ok (.flow .Return h, st₁)
      | .ok (.flow .Continue _, st₁) => exec g st₁ (.seq l)
      | .ok (.vals _, _) => .error .fatal := by
  cases hstep : exec g st (.one s) with
  | error e => simp [exec, hstep, bind, Except.bind]
  | ok p =>
    obtain ⟨o, st₁⟩ := p
    cases o with
    | flow cf hh => cases cf <;> simp [exec, hstep, bind, Except.bind]
    | vals vs => simp [exec, hstep, bind, Except.bind]

/-- Once a prefix of a statement list evaluates to a `Return`, the whole list
evaluates to the same `Return` in the same state: the statements after the
returning one are never executed. -/
theorem seq_append_return :
    ∀ (pre : List Expr) (f : Nat) (st st' : St) (h : Handle) (post : List Expr),
      exec f st (.seq pre) = .ok (.flow .Return h, st') →
      exec f st (.seq (pre ++ post)) = .ok (.flow .Return h, st') := by
  intro pre
  induction pre with
  | nil =>
    intro f st st' h post hex
    cases f with
    | zero => simp [exec] at hex
    | succ g => simp [exec] at hex
  | cons s rest ih =>
    intro f st st' h post hex
    cases f with
    | zero => simp [exec] at hex
    | succ g =>
      rw [exec_seq_cons] at hex
      rw [List.cons_append, exec_seq_cons]
      cases hstep : exec g st (.one s) with
      | error e => rw [hstep] at hex; simp at hex
      | ok p =>
        obtain ⟨o, st₁⟩ := p
        rw [hstep] at hex
        cases o with
        | flow cf hh =>
          cases cf with
          | Continue => simpa using ih g st₁ st' h post (by simpa using hex)
          | Return => simpa using hex
        | vals vs => simp at hex

/-- C1: `run` yields the unwrapped value of the first `Return` reached and
executes nothing after it.  Conjuncts: (1) if the whole statement list
evaluates with `Continue`, `run` returns `Value::None`; (2) if a prefix
`pre ++ [s]` of the program evaluates to a `Return`, `run` of
`pre ++ s :: post` returns that handle's unwrapped value for EVERY `post`
(subsequent top-level statements are dead); (3) the same post-independence for
any statement list, hence for `if`/`for` bodies; (4) an `IfElse` whose taken
body reaches a `Return` propagates it immediately (popping the block scope)
without touching the remaining body statements; (5) one `for` iteration whose
body reaches a `Return` likewise propagates it immediately, abandoning both
the sibling statements and all later iterations. -/
theorem c1_run_first_return :
    (∀ (f : Nat) (vars : List (String × Value)) (stmts : List Expr)
        (h : Handle) (st' : St),
      exec f (initState vars) (.seq stmts) = .ok (.flow .Continue h, st') →
      runProgram f vars stmts = .ok Value.none) ∧
    (∀ (f : Nat) (vars : List (String × Value)) (pre : List Expr) (s : Expr)
        (post : List Expr) (h : Handle) (st' : St),
      exec f (initState vars) (.seq (pre ++ [s])) = .ok (.flow .Return h, st') →
      runProgram f vars (pre ++ s :: post) = unwrapValue st' h) ∧
    (∀ (f : Nat) (st : St) (pre : List Expr) (s : Expr) (post : List Expr)
        (h : Handle) (st' : St),
      exec f st (.seq (pre ++ [s])) = .ok (.flow .Return h, st') →
      exec f st (.seq (pre ++ s :: post)) = .ok (.flow .Return h, st')) ∧
    (∀ (f : Nat) (st st₁ st₂ st₃ : St) (cond : Expr) (bodyPre : List Expr)
        (s : Expr) (bodyPost : List Expr) (els : Option (List Expr))
        (cf : ControlFlow) (ch h : Handle) (cv : Value),
      exec f st (.one cond) = .ok (.flow cf ch, st₁) →
      unwrapValue st₁ ch = .ok cv →
      cv.as_bool = .ok true →
      exec f (pushScope st₁) (.seq (bodyPre ++ [s])) = .ok (.flow .Return h, st₂) →
      popScope st₂ = .ok st₃ →
      exec (f + 1) st (.one (.ifElse cond (bodyPre ++ s :: bodyPost) els))
        = .ok (.flow .Return h, st₃)) ∧
    (∀ (f : Nat) (st stB st₂ st₃ : St) (it it' : Iter) (v : Value)
        (target : String) (bodyPre : List Expr) (s : Expr)
        (bodyPost : List Expr) (h : Handle),
      it.next = some (v, it') →
      createVariable (allocCell (pushScope st) v).2 target
          (allocCell (pushScope st) v).1 = .ok stB →
      exec f stB (.seq (bodyPre ++ [s])) = .ok (.flow .Return h, st₂) →
      popScope st₂ = .ok st₃ →
      exec (f + 1) st (.loop it target (bodyPre ++ s :: bodyPost))
        = .ok (.flow .Return h, st₃)) := by
  have habs : ∀ (pre : List Expr) (s : Expr) (post : List Expr),
      pre ++ s :: post = (pre ++ [s]) ++ post := by
    intro pre s post
    simp
  refine ⟨?_, ?_, ?_, ?_, ?_⟩
  · intro f vars stmts h st' hex
    simp [runProgram, hex]
  · intro f vars pre s post h st' hex
    have h2 := seq_append_return (pre ++ [s]) f _ _ h post hex
    rw [← habs] at h2
    simp [runProgram, h2]
  · intro f st pre s post h st' hex
    rw [habs]
    exact seq_append_return (pre ++ [s]) f _ _ h post hex
  · intro f st st₁ st₂ st₃ cond bodyPre s bodyPost els cf ch h cv
      hc hu hb hbody hpop
    have h2 := seq_append_return (bodyPre ++ [s]) f _ _ h bodyPost hbody
    rw [← habs] at h2
    simp [exec, hc, hu, hb, h2, hpop, Out.handle, ofVE, bind, Except.bind]
  · intro f st stB st₂ st₃ it it' v target bodyPre s bodyPost h
      hnext hcreate hbody hpop
    have h2 := seq_append_return (bodyPre ++ [s]) f _ _ h bodyPost hbody
    rw [← habs] at h2
    simp [exec, hnext, hcreate, h2, hpop, bind, Except.bind]

/-- Witness for C1: concrete instances of conjuncts (1), (2), (4) and (5) —
a return-free program runs to `None`; a returning statement makes the
following top-level statement dead; an if-body return skips its sibling; a
for-body return skips both its sibling and the would-be later iterations. -/
theorem c1_run_first_return_witness :
    runProgram 3 [] [.assignNew "x" (.i64 1)] = .ok Value.none ∧
    runProgram 4 [] ([.assignNew "x" (.i64 1)] ++ .ret (.i64 7) :: [.ret (.i64 8)])
      = .ok (.i64 7) ∧
    exec 4 (⟨[], [[]]⟩ : St)
        (.one (.ifElse (.bool true) ([] ++ .ret (.i64 1) :: [.ret (.i64 2)])
          Option.none))
      = .ok (.flow .Return (.value 1), ⟨[.bool true, .i64 1], [[]]⟩) ∧
    exec 4 (⟨[], [[]]⟩ : St)
        (.loop (.list [.i64 9]) "i" ([] ++ .ret (.var "i") :: [.ret (.i64 0)]))
      = .ok (.flow .Return (.value 0), ⟨[.i64 9], [[]]⟩) :=
  ⟨c1_run_first_return.1 3 [] [.assignNew "x" (.i64 1)] .none
      ⟨[.i64 1], [[("x", .value 0)]]⟩ rfl,
   c1_run_first_return.2.1 4 [] [.assignNew "x" (.i64 1)] (.ret (.i64 7))
      [.ret (.i64 8)] (.value 1) ⟨[.i64 1, .i64 7], [[("x", .value 0)]]⟩ rfl,
   c1_run_first_return.2.2.2.1 3 ⟨[], [[]]⟩ ⟨[.bool true], [[]]⟩
      ⟨[.bool true, .i64 1], [[], []]⟩ ⟨[.bool true, .i64 1], [[]]⟩
      (.bool true) [] (.ret (.i64 1)) [.ret (.i64 2)] Option.none
      .Continue (.value 0) (.value 1) (.bool true) rfl rfl rfl rfl rfl,
   c1_run_first_return.2.2.2.2 3 ⟨[], [[]]⟩ ⟨[.i64 9], [[("i", .value 0)], []]⟩
      ⟨[.i64 9], [[("i", .value 0)], []]⟩ ⟨[.i64 9], [[]]⟩
      (.list [.i64 9]) (.list []) (.i64 9) "i" [] (.ret (.var "i"))
      [.ret (.i64 0)] (.value 0) rfl rfl rfl rfl⟩

/-! ## C9 — Indent/Dedent tokens are well-nested -/

theorem sumSnd_nil : sumSnd [] = 0 := rfl

theorem sumSnd_cons (p : Nat × Int) (l : List (Nat × Int)) :
    sumSnd (p :: l) = p.2 + sumSnd l := by
  simp [sumSnd]

theorem sumSnd_append (a b : List (Nat × Int)) :
    sumSnd (a ++ b) = sumSnd a + sumSnd b := by
  simp [sumSnd]

theorem sumSnd_take_append (l : List (Nat × Int)) (x : Nat × Int)
    (hall : ∀ m : Nat, 0 ≤ sumSnd (l.take m)) (hfull : 0 ≤ sumSnd l + x.2) :
    ∀ n : Nat, 0 ≤ sumSnd ((l ++ [x]).take n) := by
  intro n
  rcases le_or_lt n l.length with h | h
  · rw [List.take_append_eq_append_take, Nat.sub_eq_zero_of_le h]
    simpa using hall n
  · have hlen : (l ++ [x]).length ≤ n := by simp; omega
    rw [List.take_of_length_le hlen, sumSnd_append, sumSnd_cons, sumSnd_nil]
    omega

theorem settle_touched (cur : Nat) :
    ∀ (stack : List Nat) (e : Int), (settle cur stack e true).2.1 = true := by
  intro stack
  induction stack with
  | nil => intro e; rfl
  | cons top rest ih =>
    intro e
    by_cases h1 : cur < top
    · simp [settle, h1, ih]
    · by_cases h2 : top < cur <;> simp [settle, h1, h2]

theorem settle_untouched (cur : Nat) (stack : List Nat) (e : Int)
    (h : (settle cur stack e false).2.1 = false) :
    (settle cur stack e false).1 = e ∧ (settle cur stack e false).2.2 = stack := by
  cases stack with
  | nil => exact ⟨rfl, rfl⟩
  | cons top rest =>
    by_cases h1 : cur < top
    · rw [show settle cur (top :: rest) e false = settle cur rest (e - 2) true
        by simp [settle, h1]] at h
      rw [settle_touched] at h
      simp at h
    · by_cases h2 : top < cur
      · simp [settle, h1, h2] at h
      · simp [settle, h1, h2]

theorem settle_spec (cur : Nat) :
    ∀ (mid : List Nat) (e : Int) (t : Bool),
      (∃ mid' : List Nat, (settle cur (mid ++ [0]) e t).2.2 = mid' ++ [0]) ∧
      (settle cur (mid ++ [0]) e t).1
        = e + 2 * ((((settle cur (mid ++ [0]) e t).2.2).length : Int)
            - (((mid ++ [0]).length : Int))) := by
  intro mid
  induction mid with
  | nil =>
    intro e t
    by_cases h2 : 0 < cur
    · have h1 : ¬ cur < 0 := by omega
      refine ⟨⟨[cur], by simp [settle, h1, h2]⟩, ?_⟩
      simp [settle, h1, h2]
    · have hc : cur = 0 := by omega
      subst hc
      refine ⟨⟨[], by simp [settle]⟩, by simp [settle]⟩
  | cons top rest ih =>
    intro e t
    by_cases h1 : cur < top
    · have heq : settle cur ((top :: rest) ++ [0]) e t
          = settle cur (rest ++ [0]) (e - 2) true := by
        simp [settle, h1]
      obtain ⟨⟨mid', hmid'⟩, hval⟩ := ih (e - 2) true
      rw [heq]
      refine ⟨⟨mid', hmid'⟩, ?_⟩
      rw [hval]
      have : ((top :: rest) ++ [0]).length = (rest ++ [0]).length + 1 := by simp
      rw [this]
      push_cast
      ring
    · by_cases h2 : top < cur
      · refine ⟨⟨cur :: top :: rest, by simp [settle, h1, h2]⟩, ?_⟩
        have heq : settle cur ((top :: rest) ++ [0]) e t
            = (e + 2, true, cur :: (top :: rest) ++ [0]) := by
          simp [settle, h1, h2]
        rw [heq]
        simp
      · refine ⟨⟨top :: rest, by simp [settle, h1, h2]⟩, ?_⟩
        have heq : settle cur ((top :: rest) ++ [0]) e t
            = (e, t, (top :: rest) ++ [0]) := by
          simp [settle, h1, h2]
        rw [heq]
        simp

theorem PIInv_of_fields (st₁ : PIState) {st₂ : PIState} (hs : st₂.stack = st₁.stack)
    (hi : st₂.indents = st₁.indents) (h : PIInv st₁) : PIInv st₂ := by
  obtain ⟨⟨mid, hmid⟩, heven, hsum, hpre⟩ := h
  refine ⟨⟨mid, by rw [hs]; exact hmid⟩, ?_, ?_, ?_⟩
  · rw [hi]; exact heven
  · rw [hi, hs]; exact hsum
  · rw [hi]; exact hpre

theorem parseIndentsStep_inv (st : PIState) (pc : Nat × Char) (hinv : PIInv st) :
    PIInv (parseIndentsStep st pc) := by
  by_cases hA : pc.2 = ' ' ∧ st.isNewline
  · refine PIInv_of_fields st ?_ ?_ hinv <;>
      simp [parseIndentsStep, hA.1, hA.2]
  · by_cases hB : pc.2 ≠ ' ' ∧ st.isNewline
    · obtain ⟨⟨mid, hmid⟩, heven, hsum, hpre⟩ := hinv
      rcases hsettle : settle st.current st.stack 0 false with ⟨e, tch, stack'⟩
      have hstack : (parseIndentsStep st pc).stack = stack' := by
        by_cases hnl : pc.2 = '\n' <;>
          simp [parseIndentsStep, hB.1, hB.2, hsettle, hnl]
      have hind : (parseIndentsStep st pc).indents
          = if tch then st.indents ++ [(pc.1, e)] else st.indents := by
        by_cases hnl : pc.2 = '\n' <;>
          simp [parseIndentsStep, hB.1, hB.2, hsettle, hnl]
      have hspec := settle_spec st.current mid 0 false
      rw [← hmid, hsettle] at hspec
      obtain ⟨⟨mid', hmid'⟩, hval⟩ := hspec
      simp only at hmid' hval
      cases tch with
      | false =>
        have hun := settle_untouched st.current st.stack 0 (by rw [hsettle])
        rw [hsettle] at hun
        simp only at hun
        refine ⟨⟨mid, ?_⟩, ?_, ?_, ?_⟩
        · rw [hstack, hun.2]; exact hmid
        · rw [hind]; simpa using heven
        · rw [hind, hstack, hun.2]; simpa using hsum
        · rw [hind]; simpa using hpre
      | true =>
        simp only [if_pos] at hind
        have hlen' : 1 ≤ stack'.length := by rw [hmid']; simp
        have hlen'' : 1 ≤ (stack'.length : Int) := by exact_mod_cast hlen'
        refine ⟨⟨mid', by rw [hstack]; exact hmid'⟩, ?_, ?_, ?_⟩
        · rw [hind]
          intro p hp
          simp only [List.mem_append, List.mem_singleton] at hp
          rcases hp with hp | hp
          · exact heven p hp
          · subst hp
            simp only
            omega
        · rw [hind, hstack, sumSnd_append, sumSnd_cons, sumSnd_nil, hsum, hval,
            hmid]
          push_cast
          ring
        · rw [hind]
          apply sumSnd_take_append _ _ hpre
          simp only
          rw [hval, hsum, hmid]
          linarith
    · have hnlF : st.isNewline = false := by
        cases hb : st.isNewline with
        | false => rfl
        | true =>
          by_cases hsp : pc.2 = ' '
          · exact absurd ⟨hsp, hb⟩ hA
          · exact absurd ⟨hsp, hb⟩ hB
      refine PIInv_of_fields st ?_ ?_ hinv <;>
        by_cases hnl : pc.2 = '\n' <;>
          simp [parseIndentsStep, hnlF, hnl]

theorem foldl_parseIndentsStep_inv :
    ∀ (l : List (Nat × Char)) (st : PIState), PIInv st →
      PIInv (l.foldl parseIndentsStep st) := by
  intro l
  induction l with
  | nil => intro st h; exact h
  | cons pc rest ih =>
    intro st h
    exact ih _ (parseIndentsStep_inv st pc h)

theorem parse_indents_spec (s : List Char) :
    (∀ p ∈ parse_indents s, p.2 % 2 = 0) ∧
    sumSnd (parse_indents s) = 0 ∧
    (∀ n : Nat, 0 ≤ sumSnd ((parse_indents s).take n)) := by
  have h0 : PIInv ⟨false, 0, [0], []⟩ := by
    refine ⟨⟨[], rfl⟩, by simp, by simp [sumSnd], by simp [sumSnd]⟩
  have hinv := foldl_parseIndentsStep_inv s.enum _ h0
  obtain ⟨⟨mid, hmid⟩, heven, hsum, hpre⟩ := hinv
  unfold parse_indents
  by_cases hlen : 1 < (s.enum.foldl parseIndentsStep ⟨false, 0, [0], []⟩).stack.length
  · simp only [hlen, if_pos]
    refine ⟨?_, ?_, ?_⟩
    · intro p hp
      simp only [List.mem_append, List.mem_singleton] at hp
      rcases hp with hp | hp
      · exact heven p hp
      · subst hp
        simp only
        omega
    · rw [sumSnd_append, sumSnd_cons, sumSnd_nil, hsum]
      ring
    · apply sumSnd_take_append _ _ hpre
      show (0 : Int) ≤ sumSnd _ + -2 * (_ - 1)
      rw [hsum]
      ring_nf
      exact le_refl 0
  · simp only [hlen, if_neg, ite_false]
    have h1 : 1 ≤ (s.enum.foldl parseIndentsStep ⟨false, 0, [0], []⟩).stack.length := by
      rw [hmid]
      simp
    refine ⟨heven, ?_, hpre⟩
    rw [hsum]
    omega

theorem bal_nil : bal [] = 0 := rfl

theorem bal_append (a b : List IndentResult) : bal (a ++ b) = bal a + bal b := by
  simp only [bal, List.count_append]
  push_cast
  ring

theorem bal_cons_indent (l : List IndentResult) :
    bal (.Indent :: l) = 1 + bal l := by
  simp [bal, List.count_cons]
  ring

theorem bal_cons_dedent (l : List IndentResult) :
    bal (.Dedent :: l) = bal l - 1 := by
  simp [bal, List.count_cons]
  ring

theorem bal_cons_newline (l : List IndentResult) :
    bal (.Newline :: l) = bal l := by
  simp [bal, List.count_cons]

theorem drain_pos (k : Nat) :
    ∀ fuel : Nat, k ≤ fuel →
      drainEntry fuel (2 * (k : Int)) = List.replicate k .Indent := by
  induction k with
  | zero =>
    intro fuel _
    cases fuel <;> simp [drainEntry]
  | succ k ih =>
    intro fuel hf
    obtain ⟨f, rfl⟩ : ∃ f, fuel = f + 1 := ⟨fuel - 1, by omega⟩
    have h1 : ¬ (2 * ((k + 1 : Nat) : Int) < 0) := by push_cast; omega
    have h2 : (0 : Int) < 2 * ((k + 1 : Nat) : Int) := by push_cast; omega
    rw [show drainEntry (f + 1) (2 * ((k + 1 : Nat) : Int))
        = .Indent :: drainEntry f (2 * ((k + 1 : Nat) : Int) - 2) by
      simp only [drainEntry]
      rw [if_neg h1, if_pos h2]]
    rw [show (2 * ((k + 1 : Nat) : Int) - 2) = 2 * ((k : Nat) : Int) by
      push_cast; ring]
    rw [ih f (by omega)]
    rfl

theorem drain_neg (m : Nat) :
    ∀ fuel : Nat, 2 * m ≤ fuel →
      drainEntry fuel (-(2 * (m : Int)))
        = (List.replicate m
            [IndentResult.Newline, IndentResult.Dedent]).flatten := by
  induction m with
  | zero =>
    intro fuel _
    cases fuel <;> simp [drainEntry]
  | succ m ih =>
    intro fuel hf
    obtain ⟨f, rfl⟩ : ∃ f, fuel = f + 2 := ⟨fuel - 2, by omega⟩
    have h1 : (-(2 * ((m + 1 : Nat) : Int)) < 0) := by push_cast; omega
    have h2 : (-(2 * ((m + 1 : Nat) : Int))) % 2 = 0 := by push_cast; omega
    have h3 : (-(2 * ((m + 1 : Nat) : Int)) + 1 < 0) := by push_cast; omega
    have h4 : ¬ ((-(2 * ((m + 1 : Nat) : Int)) + 1) % 2 = 0) := by
      push_cast; omega
    rw [show drainEntry (f + 2) (-(2 * ((m + 1 : Nat) : Int)))
        = .Newline :: drainEntry (f + 1) (-(2 * ((m + 1 : Nat) : Int)) + 1) by
      simp only [drainEntry]
      rw [if_pos h1, if_pos h2]]
    rw [show drainEntry (f + 1) (-(2 * ((m + 1 : Nat) : Int)) + 1)
        = .Dedent :: drainEntry f (-(2 * ((m + 1 : Nat) : Int)) + 1 + 1) by
      simp only [drainEntry]
      rw [if_pos h3, if_neg h4]]
    rw [show (-(2 * ((m + 1 : Nat) : Int)) + 1 + 1) = -(2 * ((m : Nat) : Int)) by
      push_cast; ring]
    rw [ih f (by omega)]
    simp [List.replicate_succ]

theorem replicate_indent_spec (k : Nat) :
    bal (List.replicate k .Indent) = (k : Int) ∧
    ∀ n : Nat, 0 ≤ bal ((List.replicate k .Indent).take n) := by
  have hbal : ∀ j : Nat, bal (List.replicate j .Indent) = (j : Int) := by
    intro j
    induction j with
    | zero => simp [bal]
    | succ j ih =>
      rw [List.replicate_succ, bal_cons_indent, ih]
      push_cast
      ring
  refine ⟨hbal k, ?_⟩
  intro n
  rw [List.take_replicate, hbal]
  exact Int.natCast_nonneg _

theorem pairs_spec (m : Nat) :
    bal ((List.replicate m [IndentResult.Newline, IndentResult.Dedent]).flatten)
      = -(m : Int) ∧
    ∀ n : Nat,
      -(m : Int) ≤ bal
        (((List.replicate m
            [IndentResult.Newline, IndentResult.Dedent]).flatten).take n) := by
  induction m with
  | zero => constructor <;> simp [bal]
  | succ m ih =>
    have hstep : (List.replicate (m + 1)
          [IndentResult.Newline, IndentResult.Dedent]).flatten
        = .Newline :: .Dedent ::
            (List.replicate m [IndentResult.Newline, IndentResult.Dedent]).flatten := by
      simp [List.replicate_succ]
    constructor
    · rw [hstep, bal_cons_newline, bal_cons_dedent, ih.1]
      push_cast
      ring
    · intro n
      rw [hstep]
      match n with
      | 0 =>
        rw [List.take_zero, bal_nil]
        omega
      | 1 =>
        rw [List.take_succ_cons, List.take_zero, bal_cons_newline, bal_nil]
        omega
      | n + 2 =>
        rw [List.take_succ_cons, List.take_succ_cons, bal_cons_newline,
          bal_cons_dedent]
        have := ih.2 n
        push_cast
        linarith

theorem entryTokens_spec (v : Int) (heven : v % 2 = 0) (hnz : v ≠ 0) :
    2 * bal (entryTokens v) = v ∧
    ∀ n : Nat, min v 0 ≤ 2 * bal ((entryTokens v).take n) := by
  rcases lt_or_gt_of_ne hnz with hneg | hpos
  · obtain ⟨m, hm⟩ : ∃ m : Nat, v = -(2 * (m : Int)) :=
      ⟨((-v) / 2).toNat, by omega⟩
    subst hm
    have hfuel : 2 * m ≤ 2 * (-(2 * (m : Int))).natAbs := by
      have : (-(2 * (m : Int))).natAbs = 2 * m := by
        rw [Int.natAbs_neg, Int.natAbs_mul]
        simp
      omega
    unfold entryTokens
    rw [drain_neg m _ hfuel]
    have h := pairs_spec m
    constructor
    · rw [h.1]; ring
    · intro n
      have h2 := h.2 n
      have hmin : min (-(2 * (m : Int))) 0 = -(2 * m) := by omega
      rw [hmin]
      linarith
  · obtain ⟨k, hk⟩ : ∃ k : Nat, v = 2 * (k : Int) := ⟨(v / 2).toNat, by omega⟩
    subst hk
    have hfuel : k ≤ 2 * (2 * (k : Int)).natAbs := by
      have : (2 * (k : Int)).natAbs = 2 * k := by
        rw [Int.natAbs_mul]
        simp
      omega
    unfold entryTokens
    rw [drain_pos k _ hfuel]
    have h := replicate_indent_spec k
    constructor
    · rw [h.1]
    · intro n
      have h2 := h.2 n
      have hmin : min (2 * (k : Int)) 0 = 0 := by omega
      rw [hmin]
      linarith

theorem stream_wn :
    ∀ (entries : List (Nat × Int)) (acc : Int),
      0 ≤ acc →
      (∀ n : Nat, 0 ≤ acc + sumSnd (entries.take n)) →
      (∀ p ∈ entries, p.2 % 2 = 0 ∧ p.2 ≠ 0) →
      (∀ n : Nat, 0 ≤ acc + 2 * bal ((indentTokenStream entries).take n)) ∧
      2 * bal (indentTokenStream entries) = sumSnd entries := by
  intro entries
  induction entries with
  | nil =>
    intro acc hacc _ _
    constructor
    · intro n
      simpa [indentTokenStream, bal] using hacc
    · simp [indentTokenStream, bal, sumSnd]
  | cons p es ih =>
    intro acc hacc hpre hv
    obtain ⟨pv_even, pv_nz⟩ := hv p (by simp)
    have hstream : indentTokenStream (p :: es)
        = entryTokens p.2 ++ indentTokenStream es := by
      simp [indentTokenStream]
    have hspec := entryTokens_spec p.2 pv_even pv_nz
    have hacc1 : 0 ≤ acc + p.2 := by
      have h1 := hpre 1
      rw [List.take_succ_cons, List.take_zero, sumSnd_cons, sumSnd_nil] at h1
      linarith
    have hpre' : ∀ n : Nat, 0 ≤ (acc + p.2) + sumSnd (es.take n) := by
      intro n
      have h1 := hpre (n + 1)
      rw [List.take_succ_cons, sumSnd_cons] at h1
      linarith
    have ihh := ih (acc + p.2) hacc1 hpre' (fun q hq => hv q (by simp [hq]))
    constructor
    · intro n
      rw [hstream, List.take_append_eq_append_take, bal_append]
      rcases le_or_lt n (entryTokens p.2).length with hn | hn
      · rw [Nat.sub_eq_zero_of_le hn, List.take_zero, bal_nil]
        have h1 := hspec.2 n
        rcases le_total p.2 0 with hs | hs
        · rw [min_eq_left hs] at h1
          linarith
        · rw [min_eq_right hs] at h1
          linarith
      · rw [List.take_of_length_le (le_of_lt hn)]
        have h2 := ihh.1 (n - (entryTokens p.2).length)
        linarith [hspec.1]
    · rw [hstream, bal_append, sumSnd_cons]
      have h2 := ihh.2
      linarith [hspec.1]

/-- Supporting lemma for C9: the ledger recorded by `parse_indents` is itself
balanced — whenever it holds no zero-valued entry, draining EVERY entry in
ascending position order gives a well-nested `Indent`/`Dedent` stream.  This
is what the claim intends; the actual lexer, however, drains an entry only
when its cursor lands exactly on the entry's position
(see `c9_multiline_string_skips_dedent`). -/
theorem entries_fully_drained_well_nested (s : List Char)
    (h : ∀ p ∈ parse_indents s, p.2 ≠ 0) :
    wellNested (indentTokenStream (parse_indents s)) := by
  obtain ⟨heven, htotal, hpre⟩ := parse_indents_spec s
  have key := stream_wn (parse_indents s) 0 le_rfl
    (fun n => by simpa using hpre n)
    (fun p hp => ⟨heven p hp, h p hp⟩)
  constructor
  · intro n _
    have h1 := key.1 n
    linarith
  · have h2 := key.2
    rw [htotal] at h2
    linarith

/-- The fully-drained stream of the source `"a\n b\nc"` (one indent, one
dedent) is well nested. -/
theorem entries_fully_drained_well_nested_concrete :
    wellNested (indentTokenStream (parse_indents "a\n b\nc".toList)) :=
  entries_fully_drained_well_nested _ (by decide)

/-- C9 is a code bug: the lexer does NOT keep Indent/Dedent tokens matched on
every source text.  `get_next_indent` fires only when the cursor position
equals the first ledger entry's key exactly, and the cursor jumps to each
consumed token's span end — so a token containing a newline (a multi-line
string literal) jumps OVER an entry, after which no entry is ever drained
again.  For the source `a\n 'x\nq' \nb` the pre-pass records entries
`[(3, +2), (6, -2)]` (none zero, so lexing does not abort), and the token
spans are: Identifier `a` 0..1, Newline 1..2, Whitespace 2..3, StringLiteral
`'x\nq'` 3..8, Whitespace 8..9, Newline 9..10, Identifier `b` 10..11, EOF
newline 11..11 — the cursor takes positions 0,1,2,3,8,9,10,11 and never 6.
The indent-relevant tokens actually emitted are `[Indent]`: one `Indent`,
no `Dedent`, so the completed stream violates the claimed balance (it does
satisfy the prefix inequality, being a prefix of the balanced fully-drained
stream). -/
theorem c9_multiline_string_skips_dedent :
    parse_indents "a\n 'x\nq' \nb".toList = [(3, 2), (6, -2)] ∧
    lexerIndentTokens 10 [0, 1, 2, 3, 8, 9, 10, 11] [(3, 2), (6, -2)]
      = .ok [IndentResult.Indent] ∧
    ¬ wellNested [IndentResult.Indent] := by
  refine ⟨by decide, rfl, by decide⟩

end Cowlang
